import Mathlib

/-!
# Verification of the LOB simulation core

A shallow embedding, in Lean 4, of the limit-order-book engine
(`engine/orderbook.py`), the event replayer (`engine/replayer.py`) and the
market-making strategy's accounting (`strategies/market_maker.py`) of the
repository, together with proofs of the frozen claims about them.

Modelling conventions:
* Python numbers (prices, sizes, timestamps, cash, ...) are embedded as `ℚ`.
  Every claim proved here involves only ring operations and comparisons on
  such numbers, which binary floating point performs exactly on the small
  integral witnesses used, and which the code's intent reads over exact
  arithmetic.
* A Python `dict` (insertion ordered, unique keys) is embedded as an
  association list `List (ℚ × List Order)`; `defaultdict(deque)` access is
  reproduced by `getQueue`/`setQueue` below.  The sorted price lists
  `bid_prices` / `ask_prices` are embedded as `List ℚ` with `bisect.insort`
  embedded by `insort` (they agree because `_insert_price` keeps the list
  sorted, which is part of the book invariant proved below).
* `while` loops become recursive functions with the same guard structure.
* The floating-point volatility figure `np.std(np.diff(mids))/(tick+1e-12)`
  computed in `SimpleMarketMaker._compute_spread_ticks` is a square root and
  has no exact rational embedding; it enters the strategy model as an
  explicit parameter `volFn : List ℚ → ℚ` (a function of the rolling mid
  window).  No claim under verification depends on its value, and every
  theorem about the strategy quantifies over it.
-/

namespace LOB

/-- `Order` from `engine/orderbook.py`: id, side (`"bid"`/`"ask"`), price,
mutable remaining size, placement timestamp. -/
structure Order where
  oid : Nat
  side : String
  price : ℚ
  size : ℚ
  ts : ℚ
deriving DecidableEq

/-- A fill tuple `(side, price, qty)` as appended by
`OrderBook.process_trade` (`'sell'` when asks are consumed, `'buy'` when
bids are consumed). -/
structure Fill where
  side : String
  price : ℚ
  qty : ℚ
deriving DecidableEq

/-- One half-book: the Python `dict price -> deque(Order)` embedded as an
insertion-ordered association list. -/
abbrev HalfBook := List (ℚ × List Order)

/-- Keys of a half-book, in dict (insertion) order. -/
def keysOf (hb : HalfBook) : List ℚ :=
  hb.map (·.1)

/-- `defaultdict` read access `book_side[p]`: the queue at price `p`, or the
empty queue when the key is absent. -/
def getQueue : HalfBook → ℚ → List Order
  | [], _ => []
  | e :: tl, p => if e.1 = p then e.2 else getQueue tl p

/-- Store a queue under price `p`: replaces the entry in place when the key
exists (dict update keeps position; dict keys are unique), otherwise
appends a new entry at the end (dict insertion order). -/
def setQueue : HalfBook → ℚ → List Order → HalfBook
  | [], p, q => [(p, q)]
  | e :: tl, p, q => if e.1 = p then (p, q) :: tl else e :: setQueue tl p q

/-- `del book_side[p]`: drop the entry keyed `p` (a no-op when absent,
matching the `defaultdict` create-then-delete dance in
`_remove_price_if_empty`). -/
def eraseKey : HalfBook → ℚ → HalfBook
  | [], _ => []
  | e :: tl, p => if e.1 = p then tl else e :: eraseKey tl p

/-- `bisect.insort(prices, price)`: insert into an ascending sorted list,
after any equal entries. -/
def insort (price : ℚ) : List ℚ → List ℚ
  | [] => [price]
  | q :: rest => if price < q then price :: q :: rest else q :: insort price rest

/-- `OrderBook._insert_price`: insert the price unless already present
(the `if not prices` fast path of the source coincides with `insort` on
`[]`). -/
def insertPrice (prices : List ℚ) (price : ℚ) : List ℚ :=
  if price ∈ prices then prices else insort price prices

/-- `OrderBook._remove_price_if_empty`: when the queue at `price` is empty
(or the key is absent, in which case `defaultdict` access materialises an
empty queue), delete the dict entry and remove the price from the active
price list (`list.remove` wrapped in `try/except`, hence a no-op when
absent). -/
def removePriceIfEmpty (prices : List ℚ) (price : ℚ) (hb : HalfBook) :
    List ℚ × HalfBook :=
  if getQueue hb price = [] then (prices.erase price, eraseKey hb price)
  else (prices, hb)

/-- Aggregate remaining size of a queue. -/
def queueSize (q : List Order) : ℚ :=
  (q.map (·.size)).sum

/-- Aggregate remaining size of a whole half-book. -/
def sideTotal (hb : HalfBook) : ℚ :=
  (hb.map (fun e => queueSize e.2)).sum

/-- Total quantity over a list of fills. -/
def sumQty (fs : List Fill) : ℚ :=
  (fs.map (·.qty)).sum

/-- Result of draining one price-level queue (the inner `while` of
`process_trade`). -/
structure DrainR where
  rem : ℚ
  queue : List Order
  fills : List Fill
deriving DecidableEq

/-- The inner loop of `process_trade`:
`while size > 0 and q: o = q[0]; take = min(o.size, size); o.size -= take;
size -= take; fills.append((tag, p, take)); if o.size == 0: q.popleft()`.
When the reduced head keeps a nonzero size, `size` necessarily just hit `0`
(`take = min o.size size ≠ o.size` forces `take = size`), so the loop exits
exactly as the source does. -/
def drainQueue (tag : String) (p : ℚ) (size : ℚ) (q : List Order) : DrainR :=
  match q with
  | [] => ⟨size, [], []⟩
  | o :: rest =>
    if 0 < size then
      let take := min o.size size
      if o.size - take = 0 then
        let r := drainQueue tag p (size - take) rest
        ⟨r.rem, r.queue, ⟨tag, p, take⟩ :: r.fills⟩
      else
        ⟨size - take, { o with size := o.size - take } :: rest, [⟨tag, p, take⟩]⟩
    else ⟨size, o :: rest, []⟩

/-- The best price the sweep looks at: `min(self.ask_prices)` for a trade
hitting asks, `max(self.bid_prices)` for one hitting bids. -/
def bestPrice (isAsk : Bool) (prices : List ℚ) : Option ℚ :=
  if isAsk then prices.min? else prices.max?

/-- The direction test of the sweep loop: `price >= p` for asks
(`p = min(ask_prices)`), `price <= p` for bids (`p = max(bid_prices)`). -/
def dirOK (isAsk : Bool) (price p : ℚ) : Bool :=
  if isAsk then decide (p ≤ price) else decide (price ≤ p)

/-- The side tag recorded on fills: `'sell'` when asks are consumed,
`'buy'` when bids are consumed. -/
def fillTag (isAsk : Bool) : String :=
  if isAsk then "sell" else "buy"

/-- Result of a sweep (the outer `while` of `process_trade`). -/
structure SweepR where
  rem : ℚ
  prices : List ℚ
  hb : HalfBook
  fills : List Fill
deriving DecidableEq

/-- The outer `while` of `process_trade`, shared between the two symmetric
source blocks (asks: lines 73–84; bids: lines 87–98) via `isAsk`:
`while size > 0 and prices and direction-condition: p = best(prices);
q = book_side[p]; <inner loop>; _remove_price_if_empty(prices, p, book_side)`.
The recursion continues exactly when trade size remains, matching the
source's loop re-check.  Every continuing iteration has exhausted the best
level's queue (otherwise the remaining trade size would be `0`), so
`_remove_price_if_empty` drops one price per iteration and the loop runs at
most once per active price level; `fuel` is that structural bound, and
`process_trade` supplies `prices.length`, which never runs out: with
`prices.length ≤ fuel` the `fuel = 0` branch only fires on an empty price
list, where the loop guard is false anyway. -/
def sweepSide (isAsk : Bool) (price : ℚ) :
    Nat → ℚ → List ℚ → HalfBook → SweepR
  | 0, size, prices, hb => ⟨size, prices, hb, []⟩
  | fuel + 1, size, prices, hb =>
    match bestPrice isAsk prices with
    | none => ⟨size, prices, hb, []⟩
    | some p =>
      if 0 < size ∧ dirOK isAsk price p = true then
        let r := drainQueue (fillTag isAsk) p size (getQueue hb p)
        let hb' := setQueue hb p r.queue
        let pr := removePriceIfEmpty prices p hb'
        if 0 < r.rem then
          let rest := sweepSide isAsk price fuel r.rem pr.1 pr.2
          ⟨rest.rem, rest.prices, rest.hb, r.fills ++ rest.fills⟩
        else ⟨r.rem, pr.1, pr.2, r.fills⟩
      else ⟨size, prices, hb, []⟩

/-- The order book state (`OrderBook.__init__`). -/
structure OrderBook where
  bids : HalfBook
  asks : HalfBook
  bid_prices : List ℚ
  ask_prices : List ℚ
  next_oid : Nat
  time : ℚ
deriving DecidableEq

/-- A freshly constructed book. -/
def initBook : OrderBook :=
  ⟨[], [], [], [], 1, 0⟩

/-- One step of `OrderBook.apply_snapshot` for a `(price, size)` pair: skip
it when `size <= 0` (`if s <= 0: continue`), otherwise assign
`book_side[p] = deque([Order(0, side, p, s, ts)])` and `_insert_price`. -/
def snapStep (sideName : String) (ts : ℚ) (acc : HalfBook × List ℚ)
    (pr : ℚ × ℚ) : HalfBook × List ℚ :=
  if pr.2 ≤ 0 then acc
  else (setQueue acc.1 pr.1 [⟨0, sideName, pr.1, pr.2, ts⟩],
        insertPrice acc.2 pr.1)

/-- One side of `OrderBook.apply_snapshot`: the per-pair loop starting from
the cleared half-book. -/
def snapSide (sideName : String) (ts : ℚ) (pairs : List (ℚ × ℚ)) :
    HalfBook × List ℚ :=
  pairs.foldl (snapStep sideName ts) ([], [])

/-- `OrderBook.apply_snapshot`: set the book time, clear both half-books and
their price lists, and install one synthetic order per positive-size pair. -/
def apply_snapshot (ob : OrderBook) (bids asks : List (ℚ × ℚ)) (ts : ℚ) :
    OrderBook :=
  let b := snapSide "bid" ts bids
  let a := snapSide "ask" ts asks
  { ob with time := ts, bids := b.1, bid_prices := b.2,
            asks := a.1, ask_prices := a.2 }

/-- `OrderBook.top_of_book`: `(max(bid_prices) or None, min(ask_prices) or
None)`. -/
def top_of_book (ob : OrderBook) : Option ℚ × Option ℚ :=
  (ob.bid_prices.max?, ob.ask_prices.min?)

/-- Guard of the ask branch of `process_trade`:
`self.ask_prices and price >= min(self.ask_prices)`. -/
def askCond (ob : OrderBook) (price : ℚ) : Bool :=
  match ob.ask_prices.min? with
  | some m => decide (m ≤ price)
  | none => false

/-- Guard of the bid branch of `process_trade`:
`self.bid_prices and price <= max(self.bid_prices)`. -/
def bidCond (ob : OrderBook) (price : ℚ) : Bool :=
  match ob.bid_prices.max? with
  | some m => decide (price ≤ m)
  | none => false

/-- `OrderBook.process_trade(price, size, ts)`: set time, then sweep asks if
`price >= best ask`, `elif` sweep bids if `price <= best bid`, else no
fills. -/
def process_trade (ob : OrderBook) (price size ts : ℚ) :
    OrderBook × List Fill :=
  let ob := { ob with time := ts }
  if askCond ob price then
    let r := sweepSide true price ob.ask_prices.length size ob.ask_prices ob.asks
    ({ ob with ask_prices := r.prices, asks := r.hb }, r.fills)
  else if bidCond ob price then
    let r := sweepSide false price ob.bid_prices.length size ob.bid_prices ob.bids
    ({ ob with bid_prices := r.prices, bids := r.hb }, r.fills)
  else (ob, [])

/-- `defaultdict` append `book_side[price].append(o)`. -/
def appendToQueue (hb : HalfBook) (p : ℚ) (o : Order) : HalfBook :=
  setQueue hb p (getQueue hb p ++ [o])

/-- `OrderBook.place_limit_order(side, price, size, ts)`: set time, allocate
the next id, append the order to the tail of that side/price queue
(anything other than `'bid'` goes to the asks, as in the source's
`if side == 'bid': ... else: ...`), record the price, return the id. -/
def place_limit_order (ob : OrderBook) (side : String) (price size ts : ℚ) :
    OrderBook × Nat :=
  let oid := ob.next_oid
  let o : Order := ⟨oid, side, price, size, ts⟩
  if side = "bid" then
    ({ ob with time := ts, next_oid := oid + 1,
               bids := appendToQueue ob.bids price o,
               bid_prices := insertPrice ob.bid_prices price }, oid)
  else
    ({ ob with time := ts, next_oid := oid + 1,
               asks := appendToQueue ob.asks price o,
               ask_prices := insertPrice ob.ask_prices price }, oid)

/-- The scan of one half-book in `OrderBook.cancel_order`: walk the dict
entries in insertion order; at the first level containing an order with the
id, delete that order (`deque.remove` drops the first match) and apply
`_remove_price_if_empty`; report `none` when no level matches. -/
def cancelInSide (oid : Nat) (prices : List ℚ) : HalfBook →
    Option (HalfBook × List ℚ)
  | [] => none
  | (p, q) :: rest =>
    if q.any (fun o => decide (o.oid = oid)) then
      let q' := q.eraseP (fun o => decide (o.oid = oid))
      if q' = [] then some (rest, prices.erase p)
      else some ((p, q') :: rest, prices)
    else
      match cancelInSide oid prices rest with
      | some (rest', prices') => some ((p, q) :: rest', prices')
      | none => none

/-- `OrderBook.cancel_order(oid)`: scan the bids, then the asks; `True` when
an order was removed, `False` (and an untouched book) otherwise. -/
def cancel_order (ob : OrderBook) (oid : Nat) : OrderBook × Bool :=
  match cancelInSide oid ob.bid_prices ob.bids with
  | some (bids', prices') =>
    ({ ob with bids := bids', bid_prices := prices' }, true)
  | none =>
    match cancelInSide oid ob.ask_prices ob.asks with
    | some (asks', prices') =>
      ({ ob with asks := asks', ask_prices := prices' }, true)
    | none => (ob, false)

/-- All resting orders of a half-book in scan order (dict order, each queue
front to back). -/
def flatQueues (hb : HalfBook) : List Order :=
  (hb.map (·.2)).flatten

/-- All resting orders of the book, in cancel-scan order (bids first, then
asks). -/
def allOrders (ob : OrderBook) : List Order :=
  flatQueues ob.bids ++ flatQueues ob.asks

/-- One public mutating call on the book, for reasoning about arbitrary
operation sequences. -/
inductive BookOp where
  | snap (bids asks : List (ℚ × ℚ)) (ts : ℚ)
  | limit (side : String) (price size ts : ℚ)
  | cancel (oid : Nat)
  | trade (price size ts : ℚ)

/-- Apply one public call, discarding its return value. -/
def applyOp (ob : OrderBook) : BookOp → OrderBook
  | .snap b a ts => apply_snapshot ob b a ts
  | .limit side p s ts => (place_limit_order ob side p s ts).1
  | .cancel oid => (cancel_order ob oid).1
  | .trade p s ts => (process_trade ob p s ts).1

/-- The book reached from a fresh `OrderBook()` by a sequence of public
calls. -/
def applyOps (ops : List BookOp) : OrderBook :=
  ops.foldl applyOp initBook

/-- Structural invariant of one half-book: the price list is strictly
sorted (hence duplicate free), the dict keys are duplicate free, prices and
dict keys list the same set, and no listed level has an empty queue. -/
def HalfInv (prices : List ℚ) (hb : HalfBook) : Prop :=
  List.Pairwise (· < ·) prices ∧ (keysOf hb).Nodup ∧
    (∀ p ∈ prices, p ∈ keysOf hb) ∧ (∀ p ∈ keysOf hb, p ∈ prices) ∧
    ∀ e ∈ hb, e.2 ≠ []

/-- Structural invariant of the whole book. -/
def BookInv (ob : OrderBook) : Prop :=
  HalfInv ob.bid_prices ob.bids ∧ HalfInv ob.ask_prices ob.asks

/-- Every resting order of the half-book has nonnegative remaining size. -/
def SideNonneg (hb : HalfBook) : Prop :=
  ∀ e ∈ hb, ∀ o ∈ e.2, 0 ≤ o.size

/-- Aggregate remaining size of the levels whose price satisfies the
direction condition against the trade price. -/
def condLiq (isAsk : Bool) (price : ℚ) (hb : HalfBook) : ℚ :=
  ((hb.filter fun e => dirOK isAsk price e.1).map fun e => queueSize e.2).sum

/-- Aggregate remaining size, on the side `process_trade price` would
sweep, of the levels satisfying the direction condition (`0` when the price
falls strictly inside the spread and nothing is swept). -/
def sweptLiq (ob : OrderBook) (price : ℚ) : ℚ :=
  if askCond ob price then condLiq true price ob.asks
  else if bidCond ob price then condLiq false price ob.bids
  else 0

/-- `o'` is order `o` after zero or more partial head consumptions: all
fields agree except that the remaining size may have shrunk. -/
def consumedFrom (o' o : Order) : Prop :=
  o'.oid = o.oid ∧ o'.side = o.side ∧ o'.price = o.price ∧ o'.ts = o.ts ∧
    o'.size ≤ o.size

/-- FIFO consumption: `q'` results from `q` by fully draining some prefix
and at most partially reducing the next order; every later order is
untouched.  (This is exactly "the earlier-placed order is fully drained
before a later one contributes".) -/
def fifoConsumed (q' q : List Order) : Prop :=
  ∃ k, q' = q.drop k ∨
    ∃ o t o', q.drop k = o :: t ∧ q' = o' :: t ∧ consumedFrom o' o

/-- "`a` is at least as good a price as `b`" for the side being swept:
lower for asks (best ask first), higher for bids (best bid first). -/
def fillOrd (isAsk : Bool) (a b : ℚ) : Prop :=
  if isAsk = true then a ≤ b else b ≤ a

/-! ## The market-making strategy (`strategies/market_maker.py`)

Only exact-arithmetic state is embedded; see the header note about the
floating-point volatility figure, which enters as the parameter `volFn`. -/

/-- Constructor configuration of `SimpleMarketMaker` (defaults as in the
source). -/
structure MMConfig where
  order_size : ℚ := 1
  tick : ℚ := 1
  position_limit : ℚ := 50
  inventory_k : ℚ := 1 / 5
  spread_ticks_min : ℚ := 1
  spread_ticks_max : ℚ := 5
  vol_window : Nat := 200
  vol_to_spread_k : ℚ := 10
deriving DecidableEq

/-- Mutable state of `SimpleMarketMaker`. -/
structure MMState where
  our_orders : List (Nat × (String × ℚ × ℚ)) := []
  inventory : ℚ := 0
  cash : ℚ := 0
  avg_price : ℚ := 0
  realized : ℚ := 0
  fills : List (String × ℚ × ℚ × ℚ) := []
  mids : List ℚ := []
  equity_curve : List (ℚ × ℚ) := []
  inv_curve : List (ℚ × ℚ) := []
  last_mid : Option ℚ := none
deriving DecidableEq

/-- The state right after `SimpleMarketMaker.__init__`. -/
def mmInit : MMState :=
  {}

/-- `SimpleMarketMaker.on_fill(side, price, qty, ts)`: average-cost
accounting.  `'buy'` means resting bids were hit (the strategy bought),
`'sell'` means resting asks were hit (the strategy sold).  The `1e-12`
epsilon guarding the blended-average denominator is embedded as
`1 / 10 ^ 12`. -/
def on_fill (s : MMState) (side : String) (price qty ts : ℚ) : MMState :=
  let s := { s with fills := s.fills ++ [(side, price, qty, ts)] }
  if side = "buy" then
    let s := { s with cash := s.cash - price * qty }
    if 0 ≤ s.inventory then
      let total_cost := s.avg_price * s.inventory + price * qty
      let inv' := s.inventory + qty
      { s with inventory := inv',
               avg_price := total_cost / max inv' (1 / 10 ^ 12) }
    else
      let cover := min qty (-s.inventory)
      let s := { s with realized := s.realized + (s.avg_price - price) * cover,
                        inventory := s.inventory + cover }
      let remaining := qty - cover
      if s.inventory = 0 ∧ 0 < remaining then
        { s with inventory := s.inventory + remaining, avg_price := price }
      else s
  else if side = "sell" then
    let s := { s with cash := s.cash + price * qty }
    if s.inventory ≤ 0 then
      let total_proceeds := s.avg_price * (-s.inventory) + price * qty
      let inv' := s.inventory - qty
      { s with inventory := inv',
               avg_price := total_proceeds / max (-inv') (1 / 10 ^ 12) }
    else
      let reduce := min qty s.inventory
      let s := { s with realized := s.realized + (price - s.avg_price) * reduce,
                        inventory := s.inventory - reduce }
      let remaining := qty - reduce
      if s.inventory = 0 ∧ 0 < remaining then
        { s with inventory := s.inventory - remaining, avg_price := price }
      else s
  else s

/-- `deque(maxlen = w)` append: drop from the front on overflow. -/
def pushMid (w : Nat) (mids : List ℚ) (m : ℚ) : List ℚ :=
  let m' := mids ++ [m]
  if w < m'.length then m'.drop (m'.length - w) else m'

/-- `SimpleMarketMaker._compute_spread_ticks`, with the floating-point
volatility `np.std(np.diff(mids)) / (tick + 1e-12)` supplied by `volFn`
(see the header note): below 5 samples the configured minimum, else
`min(max_, max(min_, min_ + k * vol))`. -/
def compute_spread_ticks (cfg : MMConfig) (volFn : List ℚ → ℚ)
    (mids : List ℚ) : ℚ :=
  if mids.length < 5 then cfg.spread_ticks_min
  else
    let vol := volFn mids
    let raw := cfg.spread_ticks_min + cfg.vol_to_spread_k * vol
    min cfg.spread_ticks_max (max cfg.spread_ticks_min raw)

/-- `SimpleMarketMaker._desired_quotes(mid)`: inventory skew, then
floor/ceil to the tick grid. -/
def desired_quotes (cfg : MMConfig) (volFn : List ℚ → ℚ) (s : MMState)
    (mid : ℚ) : ℚ × ℚ :=
  let skew_ticks := cfg.inventory_k * s.inventory
  let eff_mid := mid - skew_ticks * cfg.tick
  let half_spread_ticks := (1 / 2 : ℚ) * compute_spread_ticks cfg volFn s.mids
  ((⌊(eff_mid - half_spread_ticks * cfg.tick) / cfg.tick⌋ : ℚ) * cfg.tick,
   (⌈(eff_mid + half_spread_ticks * cfg.tick) / cfg.tick⌉ : ℚ) * cfg.tick)

/-- `SimpleMarketMaker._place_quotes`: cancel every owned order, then place
one bid unless inventory is at the long limit and one ask unless at the
short limit, recording the new ids. -/
def place_quotes (cfg : MMConfig) (s : MMState) (ob : OrderBook)
    (bid_price ask_price ts : ℚ) : MMState × OrderBook :=
  let ob := s.our_orders.foldl (fun acc e => (cancel_order acc e.1).1) ob
  let s := { s with our_orders := [] }
  let br :=
    if s.inventory < cfg.position_limit then
      let r := place_limit_order ob "bid" bid_price cfg.order_size ts
      ({ s with our_orders :=
           s.our_orders ++ [(r.2, ("bid", bid_price, cfg.order_size))] }, r.1)
    else (s, ob)
  let s := br.1
  let ob := br.2
  if s.inventory > -cfg.position_limit then
    let r := place_limit_order ob "ask" ask_price cfg.order_size ts
    ({ s with our_orders :=
         s.our_orders ++ [(r.2, ("ask", ask_price, cfg.order_size))] }, r.1)
  else (s, ob)

/-- `SimpleMarketMaker.on_event(orderbook, ts)`: a no-op when either side
of the book is empty; otherwise push the mid, re-quote, and append one
point to the equity curve and one to the inventory curve. -/
def on_event (cfg : MMConfig) (volFn : List ℚ → ℚ) (s : MMState)
    (ob : OrderBook) (ts : ℚ) : MMState × OrderBook :=
  match top_of_book ob with
  | (some best_bid, some best_ask) =>
    let mid := (best_bid + best_ask) / 2
    let s := { s with last_mid := some mid,
                      mids := pushMid cfg.vol_window s.mids mid }
    let dq := desired_quotes cfg volFn s mid
    let bid_px := min dq.1 best_bid
    let ask_px := max dq.2 best_ask
    let r := place_quotes cfg s ob bid_px ask_px ts
    let s2 := r.1
    let equity := s2.cash + s2.inventory * mid
    ({ s2 with equity_curve := s2.equity_curve ++ [(ts, equity)],
               inv_curve := s2.inv_curve ++ [(ts, s2.inventory)] }, r.2)
  | _ => (s, ob)

/-! ## The event replayer (`engine/replayer.py`)

The replayer is duck-typed over its strategy in the source, so it is
embedded generically over a strategy record; the best-effort CSV dump of
the fills log at the end of `run` is I/O with no effect on any returned
value and is not modelled. -/

/-- One event record (a Python dict; fields irrelevant to an event kind are
simply unused, and `ts` is optional as in `ev.get('ts', i*0.001)`). -/
structure Event where
  type : String := ""
  bids : List (ℚ × ℚ) := []
  asks : List (ℚ × ℚ) := []
  price : ℚ := 0
  size : ℚ := 0
  ts : Option ℚ := none
deriving DecidableEq

/-- One line of `Replayer.stats['fills']`. -/
structure FillLog where
  ts : ℚ
  side : String
  price : ℚ
  qty : ℚ
deriving DecidableEq

/-- The strategy capability consumed by the replayer (`on_event` may mutate
the book through the book API, so it returns the book too). -/
structure Strategy (σ : Type) where
  on_event : σ → OrderBook → ℚ → σ × OrderBook
  on_fill : σ → String → ℚ → ℚ → ℚ → σ

/-- The body of the `for` loop of `Replayer.run` for the event at index
`i`: dispatch on `ev['type']` (`snapshot` / `trade` / anything else
ignored), log and deliver each fill in order, then call `on_event` exactly
once. -/
def replayStep {σ : Type} (S : Strategy σ) (st : σ) (ob : OrderBook)
    (log : List FillLog) (i : Nat) (ev : Event) : σ × OrderBook × List FillLog :=
  let t := ev.ts.getD ((i : ℚ) * (1 / 1000))
  if ev.type = "snapshot" then
    let ob := apply_snapshot ob ev.bids ev.asks t
    let r := S.on_event st ob t
    (r.1, r.2, log)
  else if ev.type = "trade" then
    let pr := process_trade ob ev.price ev.size t
    let acc := pr.2.foldl
      (fun acc f => (acc.1 ++ [⟨t, f.side, f.price, f.qty⟩],
        S.on_fill acc.2 f.side f.price f.qty t))
      (log, st)
    let r := S.on_event acc.2 pr.1 t
    (r.1, r.2, acc.1)
  else
    let r := S.on_event st ob t
    (r.1, r.2, log)

/-- `Replayer.run(max_events)`: process the first `max_events` events of
the sequence in order (the Python generator with `enumerate` and a break
bound), threading strategy state, book and fills log. -/
def replayRun {σ : Type} (S : Strategy σ) (st : σ) (ob : OrderBook)
    (events : List Event) (max_events : Nat) : σ × OrderBook × List FillLog :=
  (events.take max_events).enum.foldl
    (fun acc iev => replayStep S acc.1 acc.2.1 acc.2.2 iev.1 iev.2)
    (st, ob, [])

/-- An instrumented strategy that only counts its `on_event` and `on_fill`
invocations; since `Replayer` is strategy-agnostic, running it against this
counter measures exactly how often the replayer calls back. -/
def countingStrategy : Strategy (Nat × Nat) :=
  ⟨fun c ob _ => ((c.1 + 1, c.2), ob), fun c _ _ _ _ => (c.1, c.2 + 1)⟩

/-- `SimpleMarketMaker` packaged as the replayer's strategy capability. -/
def mmStrategy (cfg : MMConfig) (volFn : List ℚ → ℚ) : Strategy MMState :=
  ⟨fun s ob ts => on_event cfg volFn s ob ts,
   fun s side p q ts => on_fill s side p q ts⟩

instance (prices : List ℚ) (hb : HalfBook) : Decidable (HalfInv prices hb) := by
  unfold HalfInv
  infer_instance

instance (ob : OrderBook) : Decidable (BookInv ob) := by
  unfold BookInv
  infer_instance

instance (hb : HalfBook) : Decidable (SideNonneg hb) := by
  unfold SideNonneg
  infer_instance

instance (o' o : Order) : Decidable (consumedFrom o' o) := by
  unfold consumedFrom
  infer_instance

/-! ## Helper lemmas on the association-list embedding of Python dicts -/

theorem keysOf_cons (e : ℚ × List Order) (tl : HalfBook) :
    keysOf (e :: tl) = e.1 :: keysOf tl :=
  rfl

theorem mem_keysOf_cons {e : ℚ × List Order} {tl : HalfBook} {p : ℚ} :
    p ∈ keysOf (e :: tl) ↔ e.1 = p ∨ p ∈ keysOf tl := by
  rw [keysOf_cons, List.mem_cons]
  constructor
  · rintro (h | h)
    · exact Or.inl h.symm
    · exact Or.inr h
  · rintro (h | h)
    · exact Or.inl h.symm
    · exact Or.inr h

theorem sideTotal_nil : sideTotal [] = 0 :=
  rfl

theorem sideTotal_cons (e : ℚ × List Order) (tl : HalfBook) :
    sideTotal (e :: tl) = queueSize e.2 + sideTotal tl := by
  simp [sideTotal]

theorem getQueue_setQueue_self (hb : HalfBook) (p : ℚ) (q : List Order) :
    getQueue (setQueue hb p q) p = q := by
  induction hb with
  | nil => simp [setQueue, getQueue]
  | cons e tl ih =>
    by_cases he : e.1 = p
    · simp [setQueue, getQueue, he]
    · simp [setQueue, getQueue, he, ih]

theorem getQueue_setQueue_ne (hb : HalfBook) (p p' : ℚ) (q : List Order)
    (h : p' ≠ p) : getQueue (setQueue hb p q) p' = getQueue hb p' := by
  have hpp : ¬(p = p') := fun hh => h hh.symm
  induction hb with
  | nil => simp [setQueue, getQueue, hpp]
  | cons e tl ih =>
    by_cases he : e.1 = p
    · rw [setQueue, if_pos he, getQueue, if_neg hpp, getQueue, if_neg]
      rw [he]
      exact hpp
    · rw [setQueue, if_neg he]
      by_cases he' : e.1 = p'
      · rw [getQueue, if_pos he', getQueue, if_pos he']
      · rw [getQueue, if_neg he', getQueue, if_neg he', ih]

theorem keysOf_setQueue_of_mem (hb : HalfBook) (p : ℚ) (q : List Order)
    (h : p ∈ keysOf hb) : keysOf (setQueue hb p q) = keysOf hb := by
  induction hb with
  | nil => simp [keysOf] at h
  | cons e tl ih =>
    by_cases he : e.1 = p
    · rw [setQueue, if_pos he, keysOf_cons, keysOf_cons, he]
    · have h' : p ∈ keysOf tl := by
        rcases mem_keysOf_cons.1 h with h' | h'
        · exact absurd h' he
        · exact h'
      rw [setQueue, if_neg he, keysOf_cons, keysOf_cons, ih h']

theorem keysOf_setQueue_of_not_mem (hb : HalfBook) (p : ℚ) (q : List Order)
    (h : p ∉ keysOf hb) : keysOf (setQueue hb p q) = keysOf hb ++ [p] := by
  induction hb with
  | nil => simp [setQueue, keysOf]
  | cons e tl ih =>
    have he : ¬e.1 = p := fun hh => h (mem_keysOf_cons.2 (Or.inl hh))
    have h' : p ∉ keysOf tl := fun hh => h (mem_keysOf_cons.2 (Or.inr hh))
    rw [setQueue, if_neg he, keysOf_cons, keysOf_cons, ih h', List.cons_append]

theorem getQueue_eq_nil_of_not_mem (hb : HalfBook) (p : ℚ)
    (h : p ∉ keysOf hb) : getQueue hb p = [] := by
  induction hb with
  | nil => rfl
  | cons e tl ih =>
    have he : ¬e.1 = p := fun hh => h (mem_keysOf_cons.2 (Or.inl hh))
    have h' : p ∉ keysOf tl := fun hh => h (mem_keysOf_cons.2 (Or.inr hh))
    rw [getQueue, if_neg he]
    exact ih h'

theorem getQueue_mem (hb : HalfBook) (p : ℚ) (h : p ∈ keysOf hb) :
    (p, getQueue hb p) ∈ hb := by
  induction hb with
  | nil => simp [keysOf] at h
  | cons e tl ih =>
    by_cases he : e.1 = p
    · rw [getQueue, if_pos he]
      exact List.mem_cons.2 (Or.inl (by rw [← he]))
    · have h' : p ∈ keysOf tl := by
        rcases mem_keysOf_cons.1 h with h' | h'
        · exact absurd h' he
        · exact h'
      rw [getQueue, if_neg he]
      exact List.mem_cons_of_mem _ (ih h')

theorem getQueue_eraseKey_self (hb : HalfBook) (p : ℚ)
    (h : (keysOf hb).Nodup) : getQueue (eraseKey hb p) p = [] := by
  induction hb with
  | nil => rfl
  | cons e tl ih =>
    rw [keysOf_cons, List.nodup_cons] at h
    by_cases he : e.1 = p
    · rw [eraseKey, if_pos he]
      apply getQueue_eq_nil_of_not_mem
      rw [← he]
      exact h.1
    · rw [eraseKey, if_neg he, getQueue, if_neg he]
      exact ih h.2

theorem getQueue_eraseKey_ne (hb : HalfBook) (p p' : ℚ) (h : p' ≠ p) :
    getQueue (eraseKey hb p) p' = getQueue hb p' := by
  induction hb with
  | nil => rfl
  | cons e tl ih =>
    by_cases he : e.1 = p
    · rw [eraseKey, if_pos he, getQueue, if_neg]
      rw [he]
      exact fun hh => h hh.symm
    · by_cases he' : e.1 = p'
      · rw [eraseKey, if_neg he, getQueue, if_pos he', getQueue, if_pos he']
      · rw [eraseKey, if_neg he, getQueue, if_neg he', getQueue, if_neg he', ih]

theorem keysOf_eraseKey (hb : HalfBook) (p : ℚ) :
    keysOf (eraseKey hb p) = (keysOf hb).erase p := by
  induction hb with
  | nil => rfl
  | cons e tl ih =>
    by_cases he : e.1 = p
    · rw [eraseKey, if_pos he, keysOf_cons, List.erase_cons]
      simp [he]
    · rw [eraseKey, if_neg he, keysOf_cons, keysOf_cons, List.erase_cons]
      rw [if_neg (by simpa using he), ih]

theorem nodup_keysOf_setQueue (hb : HalfBook) (p : ℚ) (q : List Order)
    (h : (keysOf hb).Nodup) : (keysOf (setQueue hb p q)).Nodup := by
  by_cases hm : p ∈ keysOf hb
  · rw [keysOf_setQueue_of_mem hb p q hm]
    exact h
  · rw [keysOf_setQueue_of_not_mem hb p q hm]
    simpa [List.nodup_append] using ⟨h, fun hh => hm hh⟩

theorem nodup_keysOf_eraseKey (hb : HalfBook) (p : ℚ)
    (h : (keysOf hb).Nodup) : (keysOf (eraseKey hb p)).Nodup := by
  rw [keysOf_eraseKey]
  exact h.erase p

theorem mem_keysOf_setQueue (hb : HalfBook) (p p' : ℚ) (q : List Order) :
    p' ∈ keysOf (setQueue hb p q) ↔ p' ∈ keysOf hb ∨ p' = p := by
  by_cases hm : p ∈ keysOf hb
  · rw [keysOf_setQueue_of_mem hb p q hm]
    constructor
    · exact fun h => Or.inl h
    · rintro (h | h)
      · exact h
      · rw [h]
        exact hm
  · rw [keysOf_setQueue_of_not_mem hb p q hm]
    simp

theorem sideTotal_setQueue (hb : HalfBook) (p : ℚ) (q : List Order) :
    sideTotal (setQueue hb p q) =
      sideTotal hb - queueSize (getQueue hb p) + queueSize q := by
  induction hb with
  | nil => simp [setQueue, sideTotal, getQueue, queueSize]
  | cons e tl ih =>
    by_cases he : e.1 = p
    · rw [setQueue, if_pos he, getQueue, if_pos he, sideTotal_cons, sideTotal_cons]
      ring
    · rw [setQueue, if_neg he, getQueue, if_neg he, sideTotal_cons, sideTotal_cons, ih]
      ring

theorem sideTotal_eraseKey (hb : HalfBook) (p : ℚ) :
    sideTotal (eraseKey hb p) = sideTotal hb - queueSize (getQueue hb p) := by
  induction hb with
  | nil => simp [eraseKey, sideTotal, getQueue, queueSize]
  | cons e tl ih =>
    by_cases he : e.1 = p
    · rw [eraseKey, if_pos he, getQueue, if_pos he, sideTotal_cons]
      ring
    · rw [eraseKey, if_neg he, getQueue, if_neg he, sideTotal_cons, sideTotal_cons, ih]
      ring

theorem queueSize_nil : queueSize [] = 0 :=
  rfl

theorem queueSize_cons (o : Order) (rest : List Order) :
    queueSize (o :: rest) = o.size + queueSize rest := by
  simp [queueSize]

theorem queueSize_nonneg (q : List Order) (h : ∀ o ∈ q, 0 ≤ o.size) :
    0 ≤ queueSize q := by
  induction q with
  | nil => simp [queueSize]
  | cons o rest ih =>
    rw [queueSize_cons]
    have := h o (List.mem_cons_self o rest)
    have := ih fun o' ho' => h o' (List.mem_cons_of_mem _ ho')
    linarith

theorem condLiq_cons (isAsk : Bool) (price : ℚ) (e : ℚ × List Order)
    (tl : HalfBook) :
    condLiq isAsk price (e :: tl) =
      (if dirOK isAsk price e.1 = true then queueSize e.2 else 0) +
        condLiq isAsk price tl := by
  by_cases h : dirOK isAsk price e.1 = true
  · simp [condLiq, List.filter_cons, h]
  · simp [condLiq, List.filter_cons, h]

theorem condLiq_nil (isAsk : Bool) (price : ℚ) : condLiq isAsk price [] = 0 :=
  rfl

theorem condLiq_setQueue (isAsk : Bool) (price : ℚ) (hb : HalfBook) (p : ℚ)
    (q : List Order) :
    condLiq isAsk price (setQueue hb p q) =
      condLiq isAsk price hb -
        (if dirOK isAsk price p = true then queueSize (getQueue hb p) else 0) +
        (if dirOK isAsk price p = true then queueSize q else 0) := by
  induction hb with
  | nil =>
    by_cases h : dirOK isAsk price p = true
    · simp [setQueue, condLiq_cons, condLiq_nil, getQueue, queueSize, h]
    · simp [setQueue, condLiq_cons, condLiq_nil, getQueue, queueSize, h]
  | cons e tl ih =>
    by_cases he : e.1 = p
    · rw [setQueue, if_pos he, getQueue, if_pos he, condLiq_cons, condLiq_cons]
      rw [he]
      ring
    · rw [setQueue, if_neg he, getQueue, if_neg he, condLiq_cons, condLiq_cons, ih]
      ring

theorem condLiq_eraseKey (isAsk : Bool) (price : ℚ) (hb : HalfBook) (p : ℚ) :
    condLiq isAsk price (eraseKey hb p) =
      condLiq isAsk price hb -
        (if dirOK isAsk price p = true then queueSize (getQueue hb p) else 0) := by
  induction hb with
  | nil => simp [eraseKey, condLiq_nil, getQueue, queueSize]
  | cons e tl ih =>
    by_cases he : e.1 = p
    · rw [eraseKey, if_pos he, getQueue, if_pos he, condLiq_cons]
      rw [he]
      ring
    · rw [eraseKey, if_neg he, getQueue, if_neg he, condLiq_cons, condLiq_cons, ih]
      ring

theorem condLiq_nonneg (isAsk : Bool) (price : ℚ) (hb : HalfBook)
    (h : SideNonneg hb) : 0 ≤ condLiq isAsk price hb := by
  induction hb with
  | nil => simp [condLiq_nil]
  | cons e tl ih =>
    rw [condLiq_cons]
    have h1 : 0 ≤ queueSize e.2 :=
      queueSize_nonneg _ (h e (List.mem_cons_self e tl))
    have h2 : 0 ≤ condLiq isAsk price tl :=
      ih fun e' he' o ho => h e' (List.mem_cons_of_mem _ he') o ho
    by_cases hd : dirOK isAsk price e.1 = true
    · rw [if_pos hd]
      linarith
    · rw [if_neg hd]
      linarith

theorem sumQty_nil : sumQty [] = 0 :=
  rfl

theorem sumQty_cons (f : Fill) (fs : List Fill) :
    sumQty (f :: fs) = f.qty + sumQty fs := by
  simp [sumQty]

theorem sumQty_append (fs gs : List Fill) :
    sumQty (fs ++ gs) = sumQty fs + sumQty gs := by
  simp [sumQty]

/-! ## `min?` / `max?` wrappers for `ℚ` -/

theorem rat_min?_mem {l : List ℚ} {a : ℚ} (h : l.min? = some a) : a ∈ l :=
  List.min?_mem (fun _ _ => min_choice _ _) h

theorem rat_min?_le {l : List ℚ} {a b : ℚ} (h : l.min? = some a) (hb : b ∈ l) :
    a ≤ b :=
  (List.le_min?_iff (fun _ _ _ => le_min_iff) h).1 le_rfl b hb

theorem rat_max?_mem {l : List ℚ} {a : ℚ} (h : l.max? = some a) : a ∈ l :=
  List.max?_mem (fun _ _ => max_choice _ _) h

theorem rat_le_max? {l : List ℚ} {a b : ℚ} (h : l.max? = some a) (hb : b ∈ l) :
    b ≤ a :=
  (List.max?_le_iff (fun _ _ _ => max_le_iff) h).1 le_rfl b hb

/-! ## The inner drain loop -/

theorem drainQueue_queue_nil_of_rem_pos (tag : String) (p : ℚ) :
    ∀ (q : List Order) (s : ℚ), 0 < (drainQueue tag p s q).rem →
      (drainQueue tag p s q).queue = [] := by
  intro q
  induction q with
  | nil => intro s _; rfl
  | cons o rest ih =>
    intro s hpos
    by_cases hs : 0 < s
    · by_cases hz : o.size - min o.size s = 0
      · simp only [drainQueue, if_pos hs, if_pos hz] at hpos ⊢
        exact ih _ hpos
      · exfalso
        simp only [drainQueue, if_pos hs, if_neg hz] at hpos
        rcases min_choice o.size s with hm | hm
        · exact hz (by rw [hm]; ring)
        · rw [hm, sub_self] at hpos
          exact lt_irrefl _ hpos
    · simp only [drainQueue, if_neg hs] at hpos
      exact absurd hpos hs

theorem min_shift (s a b : ℚ) (h : a ≤ s) :
    min s (a + b) = a + min (s - a) b := by
  rcases le_total (s - a) b with hc | hc
  · rw [min_eq_left hc, min_eq_left (by linarith)]
    ring
  · rw [min_eq_right hc, min_eq_right (by linarith)]

theorem drainQueue_spec (tag : String) (p : ℚ) :
    ∀ (q : List Order) (s : ℚ), 0 ≤ s → (∀ o ∈ q, 0 ≤ o.size) →
      (drainQueue tag p s q).rem = s - min s (queueSize q) ∧
      sumQty (drainQueue tag p s q).fills = min s (queueSize q) ∧
      queueSize (drainQueue tag p s q).queue =
        queueSize q - min s (queueSize q) := by
  intro q
  induction q with
  | nil =>
    intro s hs _
    simp [drainQueue, sumQty_nil, queueSize_nil, min_eq_right hs]
  | cons o rest ih =>
    intro s hs hq
    have hos : 0 ≤ o.size := hq o (List.mem_cons_self o rest)
    have hrest : ∀ o' ∈ rest, 0 ≤ o'.size :=
      fun o' ho' => hq o' (List.mem_cons_of_mem _ ho')
    have hrnn : 0 ≤ queueSize rest := queueSize_nonneg rest hrest
    by_cases h0 : 0 < s
    · by_cases hz : o.size - min o.size s = 0
      · have hts : min o.size s = o.size := by linarith [sub_eq_zero.mp hz]
        have hle : o.size ≤ s := min_eq_left_iff.mp hts
        obtain ⟨ih1, ih2, ih3⟩ := ih (s - o.size) (by linarith) hrest
        have hmin : min s (queueSize (o :: rest)) =
            o.size + min (s - o.size) (queueSize rest) := by
          rw [queueSize_cons]
          exact min_shift s o.size (queueSize rest) hle
        simp only [drainQueue, if_pos h0, if_pos hz]
        rw [hts]
        refine ⟨?_, ?_, ?_⟩
        · rw [ih1, hmin]
          ring
        · rw [sumQty_cons, ih2, hmin]
        · rw [ih3, hmin, queueSize_cons]
          ring
      · have hts : min o.size s = s := by
          rcases min_choice o.size s with hm | hm
          · exact absurd (by rw [hm]; ring) hz
          · exact hm
        have hle : s ≤ o.size := min_eq_right_iff.mp hts
        have hmin : min s (queueSize (o :: rest)) = s := by
          rw [queueSize_cons]
          exact min_eq_left (by linarith)
        simp only [drainQueue, if_pos h0, if_neg hz]
        rw [hts]
        refine ⟨by rw [hmin], ?_, ?_⟩
        · rw [sumQty_cons, sumQty_nil, hmin]
          ring
        · rw [hmin, queueSize_cons, queueSize_cons]
          show o.size - s + queueSize rest = o.size + queueSize rest - s
          ring
    · have hs0 : s = 0 := le_antisymm (not_lt.mp h0) hs
      have hmin : min s (queueSize (o :: rest)) = 0 := by
        rw [hs0]
        exact min_eq_left (by rw [queueSize_cons]; linarith)
      simp only [drainQueue, if_neg h0]
      exact ⟨by rw [hmin]; ring, by rw [sumQty_nil, hmin], by rw [hmin]; ring⟩

theorem drainQueue_fills_tagged (tag : String) (p : ℚ) :
    ∀ (q : List Order) (s : ℚ), ∀ f ∈ (drainQueue tag p s q).fills,
      f.side = tag ∧ f.price = p := by
  intro q
  induction q with
  | nil => intro s f hf; simp [drainQueue] at hf
  | cons o rest ih =>
    intro s f hf
    by_cases hs : 0 < s
    · by_cases hz : o.size - min o.size s = 0
      · simp only [drainQueue, if_pos hs, if_pos hz] at hf
        rcases List.mem_cons.1 hf with hf | hf
        · rw [hf]
          exact ⟨rfl, rfl⟩
        · exact ih _ f hf
      · simp only [drainQueue, if_pos hs, if_neg hz] at hf
        rcases List.mem_cons.1 hf with hf | hf
        · rw [hf]
          exact ⟨rfl, rfl⟩
        · simp at hf
    · simp only [drainQueue, if_neg hs] at hf
      simp at hf

theorem drainQueue_sizes (tag : String) (p : ℚ) :
    ∀ (q : List Order) (s : ℚ), (∀ o ∈ q, 0 ≤ o.size) →
      ∀ o ∈ (drainQueue tag p s q).queue, 0 ≤ o.size := by
  intro q
  induction q with
  | nil => intro s _ o ho; simp [drainQueue] at ho
  | cons o rest ih =>
    intro s hq o' ho'
    have hrest : ∀ x ∈ rest, 0 ≤ x.size :=
      fun x hx => hq x (List.mem_cons_of_mem _ hx)
    by_cases hs : 0 < s
    · by_cases hz : o.size - min o.size s = 0
      · simp only [drainQueue, if_pos hs, if_pos hz] at ho'
        exact ih _ hrest o' ho'
      · simp only [drainQueue, if_pos hs, if_neg hz] at ho'
        rcases List.mem_cons.1 ho' with h | h
        · rw [h]
          have : min o.size s ≤ o.size := min_le_left _ _
          simp only []
          linarith
        · exact hrest o' h
    · simp only [drainQueue, if_neg hs] at ho'
      exact hq o' ho'

theorem drainQueue_fifo (tag : String) (p : ℚ) :
    ∀ (q : List Order) (s : ℚ), fifoConsumed (drainQueue tag p s q).queue q := by
  intro q
  induction q with
  | nil => intro s; exact ⟨0, Or.inl rfl⟩
  | cons o rest ih =>
    intro s
    by_cases hs : 0 < s
    · by_cases hz : o.size - min o.size s = 0
      · simp only [drainQueue, if_pos hs, if_pos hz]
        obtain ⟨k, hk⟩ := ih (s - min o.size s)
        exact ⟨k + 1, by simpa using hk⟩
      · simp only [drainQueue, if_pos hs, if_neg hz]
        refine ⟨0, Or.inr ⟨o, rest, { o with size := o.size - min o.size s },
          rfl, rfl, rfl, rfl, rfl, rfl, ?_⟩⟩
        have hts : min o.size s = s := by
          rcases min_choice o.size s with hm | hm
          · exact absurd (by rw [hm]; ring) hz
          · exact hm
        simp only []
        linarith [hs, hts]
    · simp only [drainQueue, if_neg hs]
      exact ⟨0, Or.inl rfl⟩

/-! ## Further dict lemmas feeding the sweep proof -/

theorem mem_keysOf_of_mem {hb : HalfBook} {e : ℚ × List Order} (h : e ∈ hb) :
    e.1 ∈ keysOf hb :=
  List.mem_map_of_mem (·.1) h

theorem mem_setQueue_elim {hb : HalfBook} {p : ℚ} {q : List Order}
    {e : ℚ × List Order} (h : e ∈ setQueue hb p q) : e ∈ hb ∨ e = (p, q) := by
  induction hb with
  | nil =>
    rw [setQueue] at h
    rcases List.mem_singleton.1 h with h
    exact Or.inr h
  | cons x tl ih =>
    by_cases hx : x.1 = p
    · rw [setQueue, if_pos hx] at h
      rcases List.mem_cons.1 h with h | h
      · exact Or.inr h
      · exact Or.inl (List.mem_cons_of_mem _ h)
    · rw [setQueue, if_neg hx] at h
      rcases List.mem_cons.1 h with h | h
      · exact Or.inl (List.mem_cons.2 (Or.inl h))
      · rcases ih h with h | h
        · exact Or.inl (List.mem_cons_of_mem _ h)
        · exact Or.inr h

theorem mem_eraseKey_elim {hb : HalfBook} {p : ℚ} {e : ℚ × List Order}
    (h : e ∈ eraseKey hb p) : e ∈ hb := by
  induction hb with
  | nil => exact absurd h (List.not_mem_nil e)
  | cons x tl ih =>
    by_cases hx : x.1 = p
    · rw [eraseKey, if_pos hx] at h
      exact List.mem_cons_of_mem _ h
    · rw [eraseKey, if_neg hx] at h
      rcases List.mem_cons.1 h with h | h
      · exact List.mem_cons.2 (Or.inl h)
      · exact List.mem_cons_of_mem _ (ih h)

theorem SideNonneg_getQueue {hb : HalfBook} (h : SideNonneg hb) (p : ℚ) :
    ∀ o ∈ getQueue hb p, 0 ≤ o.size := by
  induction hb with
  | nil => intro o ho; exact absurd ho (List.not_mem_nil o)
  | cons e tl ih =>
    intro o ho
    by_cases he : e.1 = p
    · rw [getQueue, if_pos he] at ho
      exact h e (List.mem_cons_self e tl) o ho
    · rw [getQueue, if_neg he] at ho
      exact ih (fun e' he' o' ho' => h e' (List.mem_cons_of_mem _ he') o' ho') o ho

theorem SideNonneg_setQueue {hb : HalfBook} {p : ℚ} {q : List Order}
    (h : SideNonneg hb) (hq : ∀ o ∈ q, 0 ≤ o.size) :
    SideNonneg (setQueue hb p q) := by
  intro e he o ho
  rcases mem_setQueue_elim he with he' | he'
  · exact h e he' o ho
  · rw [he'] at ho
    exact hq o ho

theorem SideNonneg_eraseKey {hb : HalfBook} {p : ℚ} (h : SideNonneg hb) :
    SideNonneg (eraseKey hb p) :=
  fun e he o ho => h e (mem_eraseKey_elim he) o ho

theorem getQueue_le_condLiq (isAsk : Bool) (price : ℚ) (hb : HalfBook) (p : ℚ)
    (h : SideNonneg hb) (hd : dirOK isAsk price p = true) :
    queueSize (getQueue hb p) ≤ condLiq isAsk price hb := by
  induction hb with
  | nil => simp [getQueue, queueSize_nil, condLiq_nil]
  | cons e tl ih =>
    have htl : SideNonneg tl := fun e' he' o ho => h e' (List.mem_cons_of_mem _ he') o ho
    have hcl : 0 ≤ condLiq isAsk price tl := condLiq_nonneg isAsk price tl htl
    have hqe : 0 ≤ queueSize e.2 := queueSize_nonneg _ (h e (List.mem_cons_self e tl))
    rw [condLiq_cons]
    by_cases he : e.1 = p
    · rw [getQueue, if_pos he, if_pos (by rw [he]; exact hd)]
      linarith
    · rw [getQueue, if_neg he]
      have := ih htl
      by_cases hde : dirOK isAsk price e.1 = true
      · rw [if_pos hde]
        linarith
      · rw [if_neg hde]
        linarith

theorem sideTotal_removePrice (prices : List ℚ) (p : ℚ) (hb : HalfBook) :
    sideTotal (removePriceIfEmpty prices p hb).2 = sideTotal hb := by
  rw [removePriceIfEmpty]
  by_cases h : getQueue hb p = []
  · rw [if_pos h]
    show sideTotal (eraseKey hb p) = sideTotal hb
    rw [sideTotal_eraseKey, h, queueSize_nil]
    ring
  · rw [if_neg h]

theorem condLiq_removePrice (isAsk : Bool) (price : ℚ) (prices : List ℚ)
    (p : ℚ) (hb : HalfBook) :
    condLiq isAsk price (removePriceIfEmpty prices p hb).2 =
      condLiq isAsk price hb := by
  rw [removePriceIfEmpty]
  by_cases h : getQueue hb p = []
  · rw [if_pos h]
    show condLiq isAsk price (eraseKey hb p) = condLiq isAsk price hb
    rw [condLiq_eraseKey, h, queueSize_nil]
    by_cases hd : dirOK isAsk price p = true
    · rw [if_pos hd]
      ring
    · rw [if_neg hd]
      ring
  · rw [if_neg h]

theorem condLiq_eq_zero (isAsk : Bool) (price : ℚ) (hb : HalfBook)
    (h : ∀ k ∈ keysOf hb, ¬dirOK isAsk price k = true) :
    condLiq isAsk price hb = 0 := by
  induction hb with
  | nil => rfl
  | cons e tl ih =>
    rw [condLiq_cons, if_neg (h e.1 (mem_keysOf_cons.2 (Or.inl rfl)))]
    rw [ih fun k hk => h k (mem_keysOf_cons.2 (Or.inr hk))]
    ring

theorem bestPrice_mem {isAsk : Bool} {prices : List ℚ} {p : ℚ}
    (h : bestPrice isAsk prices = some p) : p ∈ prices := by
  by_cases hia : isAsk = true
  · rw [bestPrice, if_pos hia] at h
    exact rat_min?_mem h
  · rw [bestPrice, if_neg hia] at h
    exact rat_max?_mem h

theorem bestPrice_none {isAsk : Bool} {prices : List ℚ}
    (h : bestPrice isAsk prices = none) : prices = [] := by
  by_cases hia : isAsk = true
  · rw [bestPrice, if_pos hia] at h
    exact List.min?_eq_none_iff.1 h
  · rw [bestPrice, if_neg hia] at h
    exact List.max?_eq_none_iff.1 h

theorem dirOK_best_of_dirOK {isAsk : Bool} {prices : List ℚ} {p price k : ℚ}
    (h : bestPrice isAsk prices = some p) (hk : k ∈ prices)
    (hd : dirOK isAsk price k = true) : dirOK isAsk price p = true := by
  by_cases hia : isAsk = true
  · rw [bestPrice, if_pos hia] at h
    rw [dirOK, if_pos hia] at hd ⊢
    have := rat_min?_le h hk
    simp only [decide_eq_true_eq] at hd ⊢
    linarith
  · rw [bestPrice, if_neg hia] at h
    rw [dirOK, if_neg hia] at hd ⊢
    have := rat_le_max? h hk
    simp only [decide_eq_true_eq] at hd ⊢
    linarith

theorem keysOf_eq_nil_iff {hb : HalfBook} : keysOf hb = [] ↔ hb = [] := by
  rw [keysOf, List.map_eq_nil_iff]

/-! ## Unfolding equations for the sweep loop -/

theorem sweepSide_zero {isAsk : Bool} {price size : ℚ} {prices : List ℚ}
    {hb : HalfBook} :
    sweepSide isAsk price 0 size prices hb = ⟨size, prices, hb, []⟩ :=
  rfl

theorem sweepSide_eq_none {isAsk : Bool} {price size : ℚ} {prices : List ℚ}
    {hb : HalfBook} {fuel : Nat} (h : bestPrice isAsk prices = none) :
    sweepSide isAsk price fuel size prices hb = ⟨size, prices, hb, []⟩ := by
  cases fuel with
  | zero => rfl
  | succ fuel => rw [sweepSide, h]

theorem sweepSide_eq_stop {isAsk : Bool} {price size : ℚ} {prices : List ℚ}
    {hb : HalfBook} {p : ℚ} {fuel : Nat}
    (hp : bestPrice isAsk prices = some p)
    (hc : ¬(0 < size ∧ dirOK isAsk price p = true)) :
    sweepSide isAsk price (fuel + 1) size prices hb = ⟨size, prices, hb, []⟩ := by
  rw [sweepSide, hp]
  simp only [if_neg hc]

theorem sweepSide_eq_go {isAsk : Bool} {price size : ℚ} {prices : List ℚ}
    {hb : HalfBook} {p : ℚ} {fuel : Nat}
    (hp : bestPrice isAsk prices = some p)
    (hc : 0 < size ∧ dirOK isAsk price p = true) :
    sweepSide isAsk price (fuel + 1) size prices hb =
      (fun r pr =>
        if 0 < r.rem then
          (fun rest => (⟨rest.rem, rest.prices, rest.hb, r.fills ++ rest.fills⟩ : SweepR))
            (sweepSide isAsk price fuel r.rem pr.1 pr.2)
        else ⟨r.rem, pr.1, pr.2, r.fills⟩)
        (drainQueue (fillTag isAsk) p size (getQueue hb p))
        (removePriceIfEmpty prices p
          (setQueue hb p (drainQueue (fillTag isAsk) p size (getQueue hb p)).queue)) := by
  rw [sweepSide, hp]
  simp only [if_pos hc]

theorem getQueue_of_mem_nodup {hb : HalfBook} {p : ℚ} {q : List Order}
    (hnd : (keysOf hb).Nodup) (h : (p, q) ∈ hb) : getQueue hb p = q := by
  induction hb with
  | nil => exact absurd h (List.not_mem_nil _)
  | cons e tl ih =>
    rw [keysOf_cons, List.nodup_cons] at hnd
    rcases List.mem_cons.1 h with h | h
    · rw [getQueue, if_pos (by rw [← h])]
      rw [← h]
    · have he : ¬e.1 = p := by
        intro hh
        exact hnd.1 (hh ▸ mem_keysOf_of_mem h)
      rw [getQueue, if_neg he]
      exact ih hnd.2 h

/-- Structural effect of `_remove_price_if_empty` on a coherent half-book
state (the queue at `p` is allowed to be empty; every other queue must be
non-empty). -/
theorem removePriceIfEmpty_struct (prices : List ℚ) (p : ℚ) (hb1 : HalfBook)
    (hndk1 : (keysOf hb1).Nodup) (hndp : prices.Nodup)
    (hco1 : ∀ k ∈ keysOf hb1, k ∈ prices)
    (hco2 : ∀ k ∈ prices, k ∈ keysOf hb1) :
    (∀ k ∈ keysOf (removePriceIfEmpty prices p hb1).2,
        k ∈ (removePriceIfEmpty prices p hb1).1) ∧
    (∀ k ∈ (removePriceIfEmpty prices p hb1).1,
        k ∈ keysOf (removePriceIfEmpty prices p hb1).2) ∧
    (keysOf (removePriceIfEmpty prices p hb1).2).Nodup ∧
    (removePriceIfEmpty prices p hb1).1.Sublist prices ∧
    (removePriceIfEmpty prices p hb1).1.Nodup ∧
    (SideNonneg hb1 → SideNonneg (removePriceIfEmpty prices p hb1).2) ∧
    ((∀ e ∈ hb1, e.1 ≠ p → e.2 ≠ []) →
      ∀ e ∈ (removePriceIfEmpty prices p hb1).2, e.2 ≠ []) := by
  by_cases hq : getQueue hb1 p = []
  · rw [removePriceIfEmpty, if_pos hq]
    have hkeys : ∀ k, k ∈ keysOf (eraseKey hb1 p) ↔ k ≠ p ∧ k ∈ keysOf hb1 := by
      intro k
      rw [keysOf_eraseKey]
      exact hndk1.mem_erase_iff
    have hpr : ∀ k, k ∈ prices.erase p ↔ k ≠ p ∧ k ∈ prices :=
      fun k => hndp.mem_erase_iff
    refine ⟨?_, ?_, nodup_keysOf_eraseKey hb1 p hndk1, List.erase_sublist p prices,
      hndp.erase p, SideNonneg_eraseKey, ?_⟩
    · intro k hk
      obtain ⟨hk1, hk2⟩ := (hkeys k).1 hk
      exact (hpr k).2 ⟨hk1, hco1 k hk2⟩
    · intro k hk
      obtain ⟨hk1, hk2⟩ := (hpr k).1 hk
      exact (hkeys k).2 ⟨hk1, hco2 k hk2⟩
    · intro hne e he
      have hmem : e ∈ hb1 := mem_eraseKey_elim he
      have hk : e.1 ∈ keysOf (eraseKey hb1 p) := mem_keysOf_of_mem he
      exact hne e hmem ((hkeys e.1).1 hk).1
  · rw [removePriceIfEmpty, if_neg hq]
    refine ⟨hco1, hco2, hndk1, List.Sublist.refl prices, hndp, id, ?_⟩
    intro hne e he
    by_cases hep : e.1 = p
    · have : getQueue hb1 p = e.2 := by
        have : e = (e.1, e.2) := rfl
        rw [← hep]
        exact getQueue_of_mem_nodup hndk1 (by rw [← this]; exact he)
      intro hcon
      exact hq (by rw [this, hcon])
    · exact hne e he hep

theorem bestPrice_nil (isAsk : Bool) : bestPrice isAsk [] = none := by
  rw [bestPrice]
  by_cases hia : isAsk = true
  · rw [if_pos hia]
    rfl
  · rw [if_neg hia]
    rfl

theorem min_sub_dist (a b c : ℚ) : min (a - c) (b - c) = min a b - c := by
  rcases le_total a b with h | h
  · rw [min_eq_left h, min_eq_left (by linarith)]
  · rw [min_eq_right h, min_eq_right (by linarith)]

/-- Master lemma for the sweep loop: on a coherent half-book with
nonnegative resting sizes, the fills sum to `min(size, A)` where `A` is the
aggregate size of the levels satisfying the direction condition; the
half-book's total liquidity drops by exactly that amount; and the
structural invariants survive. -/
theorem sweepSide_main (isAsk : Bool) (price : ℚ) :
    ∀ (n : Nat) (size : ℚ) (prices : List ℚ) (hb : HalfBook),
      prices.length ≤ n → 0 ≤ size →
      (∀ k ∈ keysOf hb, k ∈ prices) → (∀ k ∈ prices, k ∈ keysOf hb) →
      (keysOf hb).Nodup → prices.Nodup → SideNonneg hb →
      sumQty (sweepSide isAsk price n size prices hb).fills =
          min size (condLiq isAsk price hb) ∧

        sideTotal (sweepSide isAsk price n size prices hb).hb =
          sideTotal hb - sumQty (sweepSide isAsk price n size prices hb).fills ∧
        (∀ k ∈ keysOf (sweepSide isAsk price n size prices hb).hb,
            k ∈ (sweepSide isAsk price n size prices hb).prices) ∧
        (∀ k ∈ (sweepSide isAsk price n size prices hb).prices,
            k ∈ keysOf (sweepSide isAsk price n size prices hb).hb) ∧
        (keysOf (sweepSide isAsk price n size prices hb).hb).Nodup ∧
        (sweepSide isAsk price n size prices hb).prices.Sublist prices ∧
        (sweepSide isAsk price n size prices hb).prices.Nodup ∧
        SideNonneg (sweepSide isAsk price n size prices hb).hb ∧
        ((∀ e ∈ hb, e.2 ≠ []) →
          ∀ e ∈ (sweepSide isAsk price n size prices hb).hb, e.2 ≠ []) := by
  intro n
  induction n with
  | zero =>
    intro size prices hb hlen hsz hsub hsup hndk hndp hnn
    have hpr : prices = [] := List.length_eq_zero.1 (Nat.le_zero.1 hlen)
    subst hpr
    have hhb : hb = [] := by
      rw [← keysOf_eq_nil_iff]
      exact List.eq_nil_iff_forall_not_mem.2
        fun a ha => (List.not_mem_nil a) (hsub a ha)
    subst hhb
    rw [sweepSide_zero]
    refine ⟨?_, ?_, hsub, hsup, hndk, List.Sublist.refl _, hndp, hnn, fun h => h⟩
    · show sumQty [] = min size (condLiq isAsk price [])
      rw [sumQty_nil, condLiq_nil, min_eq_right hsz]
    · show sideTotal [] = sideTotal [] - sumQty []
      rw [sumQty_nil]
      ring
  | succ n IH =>
    intro size prices hb hlen hsz hsub hsup hndk hndp hnn
    cases hp : bestPrice isAsk prices with
    | none =>
      have hpr : prices = [] := bestPrice_none hp
      subst hpr
      have hhb : hb = [] := by
        rw [← keysOf_eq_nil_iff]
        exact List.eq_nil_iff_forall_not_mem.2
          fun a ha => (List.not_mem_nil a) (hsub a ha)
      subst hhb
      rw [sweepSide_eq_none hp]
      refine ⟨?_, ?_, hsub, hsup, hndk, List.Sublist.refl _, hndp, hnn, fun h => h⟩
      · show sumQty [] = min size (condLiq isAsk price [])
        rw [sumQty_nil, condLiq_nil, min_eq_right hsz]
      · show sideTotal [] = sideTotal [] - sumQty []
        rw [sumQty_nil]
        ring
    | some p =>
      have hpmem : p ∈ prices := bestPrice_mem hp
      by_cases hcond : 0 < size ∧ dirOK isAsk price p = true
      · -- the loop body runs at level p
        rw [sweepSide_eq_go hp hcond]
        simp only []
        have hqnn : ∀ o ∈ getQueue hb p, 0 ≤ o.size := SideNonneg_getQueue hnn p
        obtain ⟨hd1, hd2, hd3⟩ :=
          drainQueue_spec (fillTag isAsk) p (getQueue hb p) size hsz hqnn
        have hpk : p ∈ keysOf hb := hsup p hpmem
        have hkeys1 :
            keysOf (setQueue hb p
              (drainQueue (fillTag isAsk) p size (getQueue hb p)).queue) =
              keysOf hb :=
          keysOf_setQueue_of_mem hb p _ hpk
        have hndk1 := hkeys1 ▸ hndk
        obtain ⟨m1, m2, m3, m4, m5, m6, m7⟩ :=
          removePriceIfEmpty_struct prices p
            (setQueue hb p (drainQueue (fillTag isAsk) p size (getQueue hb p)).queue)
            hndk1 hndp (by rw [hkeys1]; exact hsub) (by rw [hkeys1]; exact hsup)
        have hnn1 : SideNonneg
            (setQueue hb p (drainQueue (fillTag isAsk) p size (getQueue hb p)).queue) :=
          SideNonneg_setQueue hnn (drainQueue_sizes _ p (getQueue hb p) size hqnn)
        have htot2 : sideTotal (removePriceIfEmpty prices p
            (setQueue hb p (drainQueue (fillTag isAsk) p size (getQueue hb p)).queue)).2 =
            sideTotal hb - min size (queueSize (getQueue hb p)) := by
          rw [sideTotal_removePrice, sideTotal_setQueue, hd3]
          ring
        have hliq2 : condLiq isAsk price (removePriceIfEmpty prices p
            (setQueue hb p (drainQueue (fillTag isAsk) p size (getQueue hb p)).queue)).2 =
            condLiq isAsk price hb - min size (queueSize (getQueue hb p)) := by
          rw [condLiq_removePrice, condLiq_setQueue, hd3,
            if_pos hcond.2, if_pos hcond.2]
          ring
        have hcle : min size (queueSize (getQueue hb p)) ≤ size := min_le_left _ _
        have hne1 : (∀ e ∈ hb, e.2 ≠ []) →
            ∀ e ∈ setQueue hb p
              (drainQueue (fillTag isAsk) p size (getQueue hb p)).queue,
              e.1 ≠ p → e.2 ≠ [] := by
          intro hne e he hep
          rcases mem_setQueue_elim he with he' | he'
          · exact hne e he'
          · exact absurd (by rw [he']) hep
        by_cases h2 : 0 < (drainQueue (fillTag isAsk) p size (getQueue hb p)).rem
        · rw [if_pos h2]
          have hq0 : (drainQueue (fillTag isAsk) p size (getQueue hb p)).queue = [] :=
            drainQueue_queue_nil_of_rem_pos _ _ _ size h2
          have hget0 : getQueue (setQueue hb p
              (drainQueue (fillTag isAsk) p size (getQueue hb p)).queue) p = [] := by
            rw [getQueue_setQueue_self, hq0]
          have hpr1 : (removePriceIfEmpty prices p
              (setQueue hb p (drainQueue (fillTag isAsk) p size (getQueue hb p)).queue)).1 =
              prices.erase p := by
            rw [removePriceIfEmpty, if_pos hget0]
          have hlen' : (removePriceIfEmpty prices p
              (setQueue hb p (drainQueue (fillTag isAsk) p size (getQueue hb p)).queue)).1.length ≤ n := by
            rw [hpr1, List.length_erase_of_mem hpmem]
            have : 1 ≤ prices.length := List.length_pos.2 (List.ne_nil_of_mem hpmem)
            omega
          obtain ⟨ih1, ih2, ih3, ih4, ih5, ih6, ih7, ih8, ih9⟩ :=
            IH _ _ _ hlen' (le_of_lt h2) m1 m2 m3 m5 (m6 hnn1)
          -- the drained queue was exhausted: the level contributed all of it
          have hcq : min size (queueSize (getQueue hb p)) =
              queueSize (getQueue hb p) := by
            have := hd3
            rw [hq0, queueSize_nil] at this
            linarith
          refine ⟨?_, ?_, ih3, ih4, ih5, ?_, ih7, ih8, fun hne => ih9 (m7 (hne1 hne))⟩
          · show sumQty ((drainQueue (fillTag isAsk) p size (getQueue hb p)).fills ++
              (sweepSide isAsk price _ _ _ _).fills) = _
            rw [sumQty_append, hd2, ih1, hd1, hliq2, min_sub_dist]
            ring
          · show sideTotal (sweepSide isAsk price _ _ _ _).hb = _
            rw [ih2, htot2, sumQty_append, hd2]
            ring
          · refine List.Sublist.trans ih6 ?_
            rw [hpr1]
            exact List.erase_sublist p prices
        · rw [if_neg h2]
          have hceq : min size (queueSize (getQueue hb p)) = size := by
            have hr : (drainQueue (fillTag isAsk) p size (getQueue hb p)).rem =
                size - min size (queueSize (getQueue hb p)) := hd1
            have : ¬0 < size - min size (queueSize (getQueue hb p)) := hr ▸ h2
            linarith
          have hqc : size ≤ queueSize (getQueue hb p) := by
            rcases min_choice size (queueSize (getQueue hb p)) with hm | hm
            · rw [hceq] at hm
              linarith [min_le_right size (queueSize (getQueue hb p)), hm]
            · rw [hm] at hceq
              linarith [min_le_left size (queueSize (getQueue hb p)),
                hceq ▸ le_refl size]
          have hql : queueSize (getQueue hb p) ≤ condLiq isAsk price hb :=
            getQueue_le_condLiq isAsk price hb p hnn hcond.2
          refine ⟨?_, ?_, m1, m2, m3, m4, m5, m6 hnn1, fun hne => m7 (hne1 hne)⟩
          · show sumQty (drainQueue (fillTag isAsk) p size (getQueue hb p)).fills = _
            rw [hd2, hceq, min_eq_left (le_trans hqc hql)]
          · show sideTotal (removePriceIfEmpty prices p _).2 = _
            rw [htot2, hd2]
      · -- direction condition (or remaining size) fails: nothing happens
        rw [sweepSide_eq_stop hp hcond]
        have hmin : min size (condLiq isAsk price hb) = 0 := by
          rcases not_and_or.1 hcond with hc | hc
          · have hsz0 : size = 0 := le_antisymm (not_lt.1 hc) hsz
            rw [hsz0]
            exact min_eq_left (condLiq_nonneg isAsk price hb hnn)
          · rw [condLiq_eq_zero isAsk price hb]
            · exact min_eq_right hsz
            · intro k hk hdk
              exact hc (dirOK_best_of_dirOK hp (hsub k hk) hdk)
        refine ⟨?_, ?_, hsub, hsup, hndk, List.Sublist.refl _, hndp, hnn, fun h => h⟩
        · show sumQty [] = min size (condLiq isAsk price hb)
          rw [sumQty_nil, hmin]
        · show sideTotal hb = sideTotal hb - sumQty []
          rw [sumQty_nil]
          ring

theorem fillOrd_refl (isAsk : Bool) (a : ℚ) : fillOrd isAsk a a := by
  rw [fillOrd]
  by_cases hia : isAsk = true
  · rw [if_pos hia]
  · rw [if_neg hia]

theorem bestPrice_fillOrd {isAsk : Bool} {prices : List ℚ} {p x : ℚ}
    (h : bestPrice isAsk prices = some p) (hx : x ∈ prices) :
    fillOrd isAsk p x := by
  rw [fillOrd]
  by_cases hia : isAsk = true
  · rw [bestPrice, if_pos hia] at h
    rw [if_pos hia]
    exact rat_min?_le h hx
  · rw [bestPrice, if_neg hia] at h
    rw [if_neg hia]
    exact rat_le_max? h hx

theorem pairwise_const {l : List ℚ} {p : ℚ} (isAsk : Bool)
    (h : ∀ x ∈ l, x = p) : l.Pairwise (fillOrd isAsk) := by
  induction l with
  | nil => exact List.Pairwise.nil
  | cons x tl ih =>
    refine List.Pairwise.cons ?_ (ih fun y hy => h y (List.mem_cons_of_mem _ hy))
    intro y hy
    rw [h x (List.mem_cons_self x tl), h y (List.mem_cons_of_mem _ hy)]
    exact fillOrd_refl isAsk p

/-- Every fill the sweep emits carries the side tag of the swept side and a
price drawn from the active price list; and the fill prices come out best
price first. -/
theorem sweepSide_fills (isAsk : Bool) (price : ℚ) :
    ∀ (n : Nat) (size : ℚ) (prices : List ℚ) (hb : HalfBook),
      prices.length ≤ n →
      (∀ f ∈ (sweepSide isAsk price n size prices hb).fills,
        f.side = fillTag isAsk ∧ f.price ∈ prices) ∧
      ((sweepSide isAsk price n size prices hb).fills.map (fun f => f.price)).Pairwise
        (fillOrd isAsk) := by
  intro n
  induction n with
  | zero =>
    intro size prices hb hlen
    have hpr : prices = [] := List.length_eq_zero.1 (Nat.le_zero.1 hlen)
    subst hpr
    rw [sweepSide_zero]
    exact ⟨fun f hf => absurd hf (List.not_mem_nil f), List.Pairwise.nil⟩
  | succ n IH =>
    intro size prices hb hlen
    cases hp : bestPrice isAsk prices with
    | none =>
      rw [sweepSide_eq_none hp]
      exact ⟨fun f hf => absurd hf (List.not_mem_nil f), List.Pairwise.nil⟩
    | some p =>
      have hpmem : p ∈ prices := bestPrice_mem hp
      by_cases hcond : 0 < size ∧ dirOK isAsk price p = true
      · rw [sweepSide_eq_go hp hcond]
        simp only []
        have hdr : ∀ f ∈ (drainQueue (fillTag isAsk) p size (getQueue hb p)).fills,
            f.side = fillTag isAsk ∧ f.price = p :=
          drainQueue_fills_tagged (fillTag isAsk) p (getQueue hb p) size
        by_cases h2 : 0 < (drainQueue (fillTag isAsk) p size (getQueue hb p)).rem
        · rw [if_pos h2]
          have hq0 : (drainQueue (fillTag isAsk) p size (getQueue hb p)).queue = [] :=
            drainQueue_queue_nil_of_rem_pos _ _ _ size h2
          have hget0 : getQueue (setQueue hb p
              (drainQueue (fillTag isAsk) p size (getQueue hb p)).queue) p = [] := by
            rw [getQueue_setQueue_self, hq0]
          have hpr1 : (removePriceIfEmpty prices p
              (setQueue hb p (drainQueue (fillTag isAsk) p size (getQueue hb p)).queue)).1 =
              prices.erase p := by
            rw [removePriceIfEmpty, if_pos hget0]
          have hlen' : (removePriceIfEmpty prices p
              (setQueue hb p (drainQueue (fillTag isAsk) p size (getQueue hb p)).queue)).1.length ≤ n := by
            rw [hpr1, List.length_erase_of_mem hpmem]
            have : 1 ≤ prices.length := List.length_pos.2 (List.ne_nil_of_mem hpmem)
            omega
          obtain ⟨ihf, ihp⟩ := IH _ _ _ hlen'
          have hrecmem : ∀ f ∈ (sweepSide isAsk price n
              (drainQueue (fillTag isAsk) p size (getQueue hb p)).rem
              (removePriceIfEmpty prices p
                (setQueue hb p (drainQueue (fillTag isAsk) p size (getQueue hb p)).queue)).1
              (removePriceIfEmpty prices p
                (setQueue hb p (drainQueue (fillTag isAsk) p size (getQueue hb p)).queue)).2).fills,
              f.side = fillTag isAsk ∧ f.price ∈ prices := by
            intro f hf
            obtain ⟨hside, hmem⟩ := ihf f hf
            refine ⟨hside, ?_⟩
            rw [hpr1] at hmem
            exact (List.erase_sublist p prices).mem hmem
          constructor
          · show ∀ f ∈ _ ++ _, _
            intro f hf
            rcases List.mem_append.1 hf with hf | hf
            · obtain ⟨h1, h2'⟩ := hdr f hf
              exact ⟨h1, h2' ▸ hpmem⟩
            · exact hrecmem f hf
          · show (List.map _ (_ ++ _)).Pairwise _
            rw [List.map_append, List.pairwise_append]
            refine ⟨?_, ihp, ?_⟩
            · exact pairwise_const isAsk fun x hx => by
                obtain ⟨f, hf, hfx⟩ := List.mem_map.1 hx
                rw [← hfx]
                exact (hdr f hf).2
            · intro a ha b hbm
              obtain ⟨f, hf, hfa⟩ := List.mem_map.1 ha
              obtain ⟨g, hg, hgb⟩ := List.mem_map.1 hbm
              rw [← hfa, ← hgb, (hdr f hf).2]
              exact bestPrice_fillOrd hp (hrecmem g hg).2
        · rw [if_neg h2]
          constructor
          · show ∀ f ∈ (drainQueue (fillTag isAsk) p size (getQueue hb p)).fills, _
            intro f hf
            obtain ⟨h1, h2'⟩ := hdr f hf
            exact ⟨h1, h2' ▸ hpmem⟩
          · exact pairwise_const isAsk fun x hx => by
              obtain ⟨f, hf, hfx⟩ := List.mem_map.1 hx
              rw [← hfx]
              exact (hdr f hf).2
      · rw [sweepSide_eq_stop hp hcond]
        exact ⟨fun f hf => absurd hf (List.not_mem_nil f), List.Pairwise.nil⟩

theorem fifoConsumed_refl (q : List Order) : fifoConsumed q q :=
  ⟨0, Or.inl rfl⟩

theorem fifoConsumed_nil (q : List Order) : fifoConsumed [] q :=
  ⟨q.length, Or.inl (List.drop_length q).symm⟩

/-- The sweep consumes every queue strictly front to back: after a sweep,
each level's queue is a FIFO-consumed version of what it was. -/
theorem sweepSide_fifo (isAsk : Bool) (price : ℚ) :
    ∀ (n : Nat) (size : ℚ) (prices : List ℚ) (hb : HalfBook),
      prices.length ≤ n → 0 ≤ size →
      (∀ k ∈ keysOf hb, k ∈ prices) → (∀ k ∈ prices, k ∈ keysOf hb) →
      (keysOf hb).Nodup → prices.Nodup → SideNonneg hb →
      ∀ pp, fifoConsumed (getQueue (sweepSide isAsk price n size prices hb).hb pp)
        (getQueue hb pp) := by
  intro n
  induction n with
  | zero =>
    intro size prices hb hlen hsz hsub hsup hndk hndp hnn pp
    have hpr : prices = [] := List.length_eq_zero.1 (Nat.le_zero.1 hlen)
    subst hpr
    rw [sweepSide_zero]
    exact fifoConsumed_refl _
  | succ n IH =>
    intro size prices hb hlen hsz hsub hsup hndk hndp hnn pp
    cases hp : bestPrice isAsk prices with
    | none =>
      rw [sweepSide_eq_none hp]
      exact fifoConsumed_refl _
    | some p =>
      have hpmem : p ∈ prices := bestPrice_mem hp
      by_cases hcond : 0 < size ∧ dirOK isAsk price p = true
      · rw [sweepSide_eq_go hp hcond]
        simp only []
        have hqnn : ∀ o ∈ getQueue hb p, 0 ≤ o.size := SideNonneg_getQueue hnn p
        have hpk : p ∈ keysOf hb := hsup p hpmem
        have hkeys1 :
            keysOf (setQueue hb p
              (drainQueue (fillTag isAsk) p size (getQueue hb p)).queue) =
              keysOf hb :=
          keysOf_setQueue_of_mem hb p _ hpk
        have hndk1 := hkeys1 ▸ hndk
        obtain ⟨m1, m2, m3, m4, m5, m6, m7⟩ :=
          removePriceIfEmpty_struct prices p
            (setQueue hb p (drainQueue (fillTag isAsk) p size (getQueue hb p)).queue)
            hndk1 hndp (by rw [hkeys1]; exact hsub) (by rw [hkeys1]; exact hsup)
        have hnn1 : SideNonneg
            (setQueue hb p (drainQueue (fillTag isAsk) p size (getQueue hb p)).queue) :=
          SideNonneg_setQueue hnn (drainQueue_sizes _ p (getQueue hb p) size hqnn)
        by_cases h2 : 0 < (drainQueue (fillTag isAsk) p size (getQueue hb p)).rem
        · rw [if_pos h2]
          have hq0 : (drainQueue (fillTag isAsk) p size (getQueue hb p)).queue = [] :=
            drainQueue_queue_nil_of_rem_pos _ _ _ size h2
          have hget0 : getQueue (setQueue hb p
              (drainQueue (fillTag isAsk) p size (getQueue hb p)).queue) p = [] := by
            rw [getQueue_setQueue_self, hq0]
          have hpr1 : (removePriceIfEmpty prices p
              (setQueue hb p (drainQueue (fillTag isAsk) p size (getQueue hb p)).queue)).1 =
              prices.erase p := by
            rw [removePriceIfEmpty, if_pos hget0]
          have hpr2 : (removePriceIfEmpty prices p
              (setQueue hb p (drainQueue (fillTag isAsk) p size (getQueue hb p)).queue)).2 =
              eraseKey (setQueue hb p
                (drainQueue (fillTag isAsk) p size (getQueue hb p)).queue) p := by
            rw [removePriceIfEmpty, if_pos hget0]
          have hlen' : (removePriceIfEmpty prices p
              (setQueue hb p (drainQueue (fillTag isAsk) p size (getQueue hb p)).queue)).1.length ≤ n := by
            rw [hpr1, List.length_erase_of_mem hpmem]
            have : 1 ≤ prices.length := List.length_pos.2 (List.ne_nil_of_mem hpmem)
            omega
          by_cases hpp : pp = p
          · -- the fully-drained level: it stays absent for the rest of the sweep
            subst hpp
            obtain ⟨_, _, mm3, _, _, mm6, _, _, _⟩ :=
              sweepSide_main isAsk price n _ _ _ hlen' (le_of_lt h2) m1 m2 m3 m5
                (m6 hnn1)
            have hnotmem : pp ∉ keysOf (sweepSide isAsk price n
                (drainQueue (fillTag isAsk) pp size (getQueue hb pp)).rem
                (removePriceIfEmpty prices pp
                  (setQueue hb pp (drainQueue (fillTag isAsk) pp size (getQueue hb pp)).queue)).1
                (removePriceIfEmpty prices pp
                  (setQueue hb pp (drainQueue (fillTag isAsk) pp size (getQueue hb pp)).queue)).2).hb := by
            -- membership in the result's keys would land in the erased price list
              intro hmem
              have h1 := mm3 pp hmem
              have h2' := mm6.mem h1
              rw [hpr1] at h2'
              exact ((hndp.mem_erase_iff).1 h2').1 rfl
            rw [getQueue_eq_nil_of_not_mem _ _ hnotmem]
            exact fifoConsumed_nil _
          · have hgq : getQueue (removePriceIfEmpty prices p
                (setQueue hb p (drainQueue (fillTag isAsk) p size (getQueue hb p)).queue)).2 pp =
                getQueue hb pp := by
              rw [hpr2, getQueue_eraseKey_ne _ _ _ hpp, getQueue_setQueue_ne _ _ _ _ hpp]
            have := IH _ _ _ hlen' (le_of_lt h2) m1 m2 m3 m5 (m6 hnn1) pp
            rw [hgq] at this
            exact this
        · rw [if_neg h2]
          by_cases hpp : pp = p
          · subst hpp
            by_cases hcase : (drainQueue (fillTag isAsk) pp size (getQueue hb pp)).queue = []
            · have hget0 : getQueue (setQueue hb pp
                  (drainQueue (fillTag isAsk) pp size (getQueue hb pp)).queue) pp = [] := by
                rw [getQueue_setQueue_self, hcase]
              have hpr2 : (removePriceIfEmpty prices pp
                  (setQueue hb pp (drainQueue (fillTag isAsk) pp size (getQueue hb pp)).queue)).2 =
                  eraseKey (setQueue hb pp
                    (drainQueue (fillTag isAsk) pp size (getQueue hb pp)).queue) pp := by
                rw [removePriceIfEmpty, if_pos hget0]
              rw [hpr2, getQueue_eraseKey_self _ _ hndk1]
              exact fifoConsumed_nil _
            · have hget0 : ¬getQueue (setQueue hb pp
                  (drainQueue (fillTag isAsk) pp size (getQueue hb pp)).queue) pp = [] := by
                rw [getQueue_setQueue_self]
                exact hcase
              have hpr2 : (removePriceIfEmpty prices pp
                  (setQueue hb pp (drainQueue (fillTag isAsk) pp size (getQueue hb pp)).queue)).2 =
                  setQueue hb pp
                    (drainQueue (fillTag isAsk) pp size (getQueue hb pp)).queue := by
                rw [removePriceIfEmpty, if_neg hget0]
              rw [hpr2, getQueue_setQueue_self]
              exact drainQueue_fifo _ _ _ _
          · have hgq : getQueue (removePriceIfEmpty prices p
                (setQueue hb p (drainQueue (fillTag isAsk) p size (getQueue hb p)).queue)).2 pp =
                getQueue hb pp := by
              rw [removePriceIfEmpty]
              by_cases hcase : getQueue (setQueue hb p
                  (drainQueue (fillTag isAsk) p size (getQueue hb p)).queue) p = []
              · rw [if_pos hcase]
                show getQueue (eraseKey _ _) pp = _
                rw [getQueue_eraseKey_ne _ _ _ hpp, getQueue_setQueue_ne _ _ _ _ hpp]
              · rw [if_neg hcase]
                show getQueue (setQueue _ _ _) pp = _
                rw [getQueue_setQueue_ne _ _ _ _ hpp]
            rw [hgq]
            exact fifoConsumed_refl _
      · rw [sweepSide_eq_stop hp hcond]
        exact fifoConsumed_refl _

/-- Structural half of the sweep lemma, free of any size-sign hypotheses:
the remove-on-empty discipline keeps the half-book coherent whatever the
resting or trade sizes are. -/
theorem sweepSide_struct (isAsk : Bool) (price : ℚ) :
    ∀ (n : Nat) (size : ℚ) (prices : List ℚ) (hb : HalfBook),
      prices.length ≤ n →
      (∀ k ∈ keysOf hb, k ∈ prices) → (∀ k ∈ prices, k ∈ keysOf hb) →
      (keysOf hb).Nodup → prices.Nodup →
      (∀ k ∈ keysOf (sweepSide isAsk price n size prices hb).hb,
          k ∈ (sweepSide isAsk price n size prices hb).prices) ∧
        (∀ k ∈ (sweepSide isAsk price n size prices hb).prices,
          k ∈ keysOf (sweepSide isAsk price n size prices hb).hb) ∧
        (keysOf (sweepSide isAsk price n size prices hb).hb).Nodup ∧
        (sweepSide isAsk price n size prices hb).prices.Sublist prices ∧
        (sweepSide isAsk price n size prices hb).prices.Nodup ∧
        ((∀ e ∈ hb, e.2 ≠ []) →
          ∀ e ∈ (sweepSide isAsk price n size prices hb).hb, e.2 ≠ []) := by
  intro n
  induction n with
  | zero =>
    intro size prices hb hlen hsub hsup hndk hndp
    have hpr : prices = [] := List.length_eq_zero.1 (Nat.le_zero.1 hlen)
    subst hpr
    rw [sweepSide_zero]
    exact ⟨hsub, hsup, hndk, List.Sublist.refl _, hndp, fun h => h⟩
  | succ n IH =>
    intro size prices hb hlen hsub hsup hndk hndp
    cases hp : bestPrice isAsk prices with
    | none =>
      rw [sweepSide_eq_none hp]
      exact ⟨hsub, hsup, hndk, List.Sublist.refl _, hndp, fun h => h⟩
    | some p =>
      have hpmem : p ∈ prices := bestPrice_mem hp
      by_cases hcond : 0 < size ∧ dirOK isAsk price p = true
      · rw [sweepSide_eq_go hp hcond]
        simp only []
        have hpk : p ∈ keysOf hb := hsup p hpmem
        have hkeys1 :
            keysOf (setQueue hb p
              (drainQueue (fillTag isAsk) p size (getQueue hb p)).queue) =
              keysOf hb :=
          keysOf_setQueue_of_mem hb p _ hpk
        have hndk1 := hkeys1 ▸ hndk
        obtain ⟨m1, m2, m3, m4, m5, m6, m7⟩ :=
          removePriceIfEmpty_struct prices p
            (setQueue hb p (drainQueue (fillTag isAsk) p size (getQueue hb p)).queue)
            hndk1 hndp (by rw [hkeys1]; exact hsub) (by rw [hkeys1]; exact hsup)
        have hne1 : (∀ e ∈ hb, e.2 ≠ []) →
            ∀ e ∈ setQueue hb p
              (drainQueue (fillTag isAsk) p size (getQueue hb p)).queue,
              e.1 ≠ p → e.2 ≠ [] := by
          intro hne e he hep
          rcases mem_setQueue_elim he with he' | he'
          · exact hne e he'
          · exact absurd (by rw [he']) hep
        by_cases h2 : 0 < (drainQueue (fillTag isAsk) p size (getQueue hb p)).rem
        · rw [if_pos h2]
          have hq0 : (drainQueue (fillTag isAsk) p size (getQueue hb p)).queue = [] :=
            drainQueue_queue_nil_of_rem_pos _ _ _ size h2
          have hget0 : getQueue (setQueue hb p
              (drainQueue (fillTag isAsk) p size (getQueue hb p)).queue) p = [] := by
            rw [getQueue_setQueue_self, hq0]
          have hpr1 : (removePriceIfEmpty prices p
              (setQueue hb p (drainQueue (fillTag isAsk) p size (getQueue hb p)).queue)).1 =
              prices.erase p := by
            rw [removePriceIfEmpty, if_pos hget0]
          have hlen' : (removePriceIfEmpty prices p
              (setQueue hb p (drainQueue (fillTag isAsk) p size (getQueue hb p)).queue)).1.length ≤ n := by
            rw [hpr1, List.length_erase_of_mem hpmem]
            have : 1 ≤ prices.length := List.length_pos.2 (List.ne_nil_of_mem hpmem)
            omega
          obtain ⟨ih1, ih2, ih3, ih4, ih5, ih6⟩ := IH _ _ _ hlen' m1 m2 m3 m5
          refine ⟨ih1, ih2, ih3, ?_, ih5, fun hne => ih6 (m7 (hne1 hne))⟩
          refine List.Sublist.trans ih4 ?_
          rw [hpr1]
          exact List.erase_sublist p prices
        · rw [if_neg h2]
          exact ⟨m1, m2, m3, m4, m5, fun hne => m7 (hne1 hne)⟩
      · rw [sweepSide_eq_stop hp hcond]
        exact ⟨hsub, hsup, hndk, List.Sublist.refl _, hndp, fun h => h⟩

/-! ## `_insert_price` and invariant preservation of the writing operations -/

theorem mem_insort (p x : ℚ) : ∀ (l : List ℚ), x ∈ insort p l ↔ x = p ∨ x ∈ l := by
  intro l
  induction l with
  | nil => simp [insort]
  | cons q rest ih =>
    by_cases h : p < q
    · rw [insort, if_pos h]
      simp [List.mem_cons]
    · rw [insort, if_neg h]
      simp only [List.mem_cons, ih]
      tauto

theorem insort_pairwise (p : ℚ) :
    ∀ (l : List ℚ), l.Pairwise (· < ·) → p ∉ l →
      (insort p l).Pairwise (· < ·) := by
  intro l
  induction l with
  | nil => intro _ _; simp [insort]
  | cons q rest ih =>
    intro hpw hnm
    rw [List.pairwise_cons] at hpw
    by_cases h : p < q
    · rw [insort, if_pos h]
      refine List.Pairwise.cons ?_ (List.Pairwise.cons hpw.1 hpw.2)
      intro b hb
      rcases List.mem_cons.1 hb with hb | hb
      · rw [hb]
        exact h
      · exact lt_trans h (hpw.1 b hb)
    · rw [insort, if_neg h]
      have hqp : q < p := by
        rcases lt_or_eq_of_le (not_lt.1 h) with hlt | heq
        · exact hlt
        · exact absurd heq.symm (fun hh => hnm (hh ▸ List.mem_cons_self q rest))
      refine List.Pairwise.cons ?_
        (ih hpw.2 fun hm => hnm (List.mem_cons_of_mem _ hm))
      intro b hb
      rcases (mem_insort p b rest).1 hb with hb | hb
      · rw [hb]
        exact hqp
      · exact hpw.1 b hb

theorem mem_insertPrice (l : List ℚ) (p x : ℚ) :
    x ∈ insertPrice l p ↔ x = p ∨ x ∈ l := by
  rw [insertPrice]
  by_cases h : p ∈ l
  · rw [if_pos h]
    constructor
    · exact Or.inr
    · rintro (hx | hx)
      · rw [hx]
        exact h
      · exact hx
  · rw [if_neg h]
    exact mem_insort p x l

theorem insertPrice_pairwise (l : List ℚ) (p : ℚ) (h : l.Pairwise (· < ·)) :
    (insertPrice l p).Pairwise (· < ·) := by
  rw [insertPrice]
  by_cases hm : p ∈ l
  · rw [if_pos hm]
    exact h
  · rw [if_neg hm]
    exact insort_pairwise p l h hm

theorem pairwise_lt_nodup {l : List ℚ} (h : l.Pairwise (· < ·)) : l.Nodup :=
  h.imp ne_of_lt

/-- Writing a non-empty queue at a price and `_insert_price`-ing that price
preserves the half-book invariant. -/
theorem HalfInv_set {prices : List ℚ} {hb : HalfBook} (price : ℚ)
    {q : List Order} (hq : q ≠ []) (hinv : HalfInv prices hb) :
    HalfInv (insertPrice prices price) (setQueue hb price q) := by
  obtain ⟨hpw, hndk, hco1, hco2, hne⟩ := hinv
  refine ⟨insertPrice_pairwise prices price hpw, nodup_keysOf_setQueue hb price q hndk,
    ?_, ?_, ?_⟩
  · intro k hk
    rcases (mem_insertPrice prices price k).1 hk with hk | hk
    · exact (mem_keysOf_setQueue hb price k q).2 (Or.inr hk)
    · exact (mem_keysOf_setQueue hb price k q).2 (Or.inl (hco1 k hk))
  · intro k hk
    rcases (mem_keysOf_setQueue hb price k q).1 hk with hk | hk
    · exact (mem_insertPrice prices price k).2 (Or.inr (hco2 k hk))
    · exact (mem_insertPrice prices price k).2 (Or.inl hk)
  · intro e he
    rcases mem_setQueue_elim he with he | he
    · exact hne e he
    · rw [he]
      exact hq

/-- The invariant of a fresh, empty half-book. -/
theorem HalfInv_nil : HalfInv [] [] :=
  ⟨List.Pairwise.nil, List.nodup_nil,
    fun _ h => absurd h (List.not_mem_nil _),
    fun _ h => absurd h (List.not_mem_nil _),
    fun _ h => absurd h (List.not_mem_nil _)⟩

/-- `process_trade` preserves the book invariant (any trade price and
size). -/
theorem process_trade_inv (ob : OrderBook) (price size ts : ℚ)
    (h : BookInv ob) : BookInv (process_trade ob price size ts).1 := by
  obtain ⟨hbid, hask⟩ := h
  rw [process_trade]
  by_cases ha : askCond { ob with time := ts } price = true
  · rw [if_pos ha]
    obtain ⟨hpw, hndk, hco1, hco2, hne⟩ := hask
    obtain ⟨s1, s2, s3, s4, s5, s6⟩ :=
      sweepSide_struct true price ob.ask_prices.length size ob.ask_prices
        ob.asks (le_refl _) hco2 hco1 hndk (pairwise_lt_nodup hpw)
    exact ⟨hbid, List.Pairwise.sublist s4 hpw, s3, s2, s1, s6 hne⟩
  · rw [if_neg ha]
    by_cases hbnd : bidCond { ob with time := ts } price = true
    · rw [if_pos hbnd]
      obtain ⟨hpw, hndk, hco1, hco2, hne⟩ := hbid
      obtain ⟨s1, s2, s3, s4, s5, s6⟩ :=
        sweepSide_struct false price ob.bid_prices.length size ob.bid_prices
          ob.bids (le_refl _) hco2 hco1 hndk (pairwise_lt_nodup hpw)
      exact ⟨⟨List.Pairwise.sublist s4 hpw, s3, s2, s1, s6 hne⟩, hask⟩
    · rw [if_neg hbnd]
      exact ⟨hbid, hask⟩

/-- `place_limit_order` preserves the book invariant (any side string,
price and size). -/
theorem place_limit_order_inv (ob : OrderBook) (side : String)
    (price size ts : ℚ) (h : BookInv ob) :
    BookInv (place_limit_order ob side price size ts).1 := by
  obtain ⟨hbid, hask⟩ := h
  rw [place_limit_order]
  by_cases hs : side = "bid"
  · rw [if_pos hs]
    exact ⟨HalfInv_set price (by simp [appendToQueue]) hbid, hask⟩
  · rw [if_neg hs]
    exact ⟨hbid, HalfInv_set price (by simp [appendToQueue]) hask⟩

/-- Fold lemma for one side of `apply_snapshot`: starting from a coherent
accumulator whose entries are single synthetic orders satisfying `P`,
the per-pair loop keeps the invariant, every entry remains one synthetic
order traceable to `P` or to a supplied positive pair, every positive pair
installs its price, and keys are never dropped. -/
theorem snapFold (name : String) (ts : ℚ) :
    ∀ (pairs : List (ℚ × ℚ)) (hb : HalfBook) (prices : List ℚ)
      (P : ℚ → ℚ → Prop),
      HalfInv prices hb →
      (∀ e ∈ hb, ∃ s, e.2 = [⟨0, name, e.1, s, ts⟩] ∧ P e.1 s) →
      HalfInv (pairs.foldl (snapStep name ts) (hb, prices)).2
          (pairs.foldl (snapStep name ts) (hb, prices)).1 ∧
        (∀ e ∈ (pairs.foldl (snapStep name ts) (hb, prices)).1,
          ∃ s, e.2 = [⟨0, name, e.1, s, ts⟩] ∧
            (P e.1 s ∨ ((e.1, s) ∈ pairs ∧ 0 < s))) ∧
        (∀ pr ∈ pairs, 0 < pr.2 →
          pr.1 ∈ keysOf (pairs.foldl (snapStep name ts) (hb, prices)).1) ∧
        (∀ k ∈ keysOf hb,
          k ∈ keysOf (pairs.foldl (snapStep name ts) (hb, prices)).1) := by
  intro pairs
  induction pairs with
  | nil =>
    intro hb prices P hinv hdesc
    rw [List.foldl_nil]
    exact ⟨hinv, fun e he => (hdesc e he).imp fun s hs => ⟨hs.1, Or.inl hs.2⟩,
      fun pr hpr => absurd hpr (List.not_mem_nil pr), fun k hk => hk⟩
  | cons pr rest ih =>
    intro hb prices P hinv hdesc
    rw [List.foldl_cons]
    by_cases hps : pr.2 ≤ 0
    · rw [snapStep, if_pos hps]
      obtain ⟨i1, i2, i3, i4⟩ := ih hb prices P hinv hdesc
      refine ⟨i1, ?_, ?_, i4⟩
      · intro e he
        exact (i2 e he).imp fun s hs =>
          ⟨hs.1, hs.2.imp id fun hm => ⟨List.mem_cons_of_mem _ hm.1, hm.2⟩⟩
      · intro x hx hxp
        rcases List.mem_cons.1 hx with hx | hx
        · rw [hx] at hxp
          exact absurd hps (not_le.2 hxp)
        · exact i3 x hx hxp
    · rw [snapStep, if_neg hps]
      have hpos : 0 < pr.2 := not_le.1 hps
      have hinv' : HalfInv (insertPrice prices pr.1)
          (setQueue hb pr.1 [⟨0, name, pr.1, pr.2, ts⟩]) :=
        HalfInv_set pr.1 (by simp) hinv
      have hdesc' : ∀ e ∈ setQueue hb pr.1 [⟨0, name, pr.1, pr.2, ts⟩],
          ∃ s, e.2 = [⟨0, name, e.1, s, ts⟩] ∧
            (P e.1 s ∨ ((e.1, s) = pr ∧ 0 < s)) := by
        intro e he
        rcases mem_setQueue_elim he with he | he
        · exact (hdesc e he).imp fun s hs => ⟨hs.1, Or.inl hs.2⟩
        · refine ⟨pr.2, ?_, Or.inr ⟨?_, hpos⟩⟩
          · rw [he]
          · rw [he]
      obtain ⟨i1, i2, i3, i4⟩ :=
        ih _ _ (fun k s => P k s ∨ ((k, s) = pr ∧ 0 < s)) hinv' hdesc'
      refine ⟨i1, ?_, ?_, ?_⟩
      · intro e he
        refine (i2 e he).imp fun s hs => ⟨hs.1, ?_⟩
        rcases hs.2 with hs2 | hs2
        · rcases hs2 with hs2 | hs2
          · exact Or.inl hs2
          · exact Or.inr ⟨hs2.1 ▸ List.mem_cons_self pr rest, hs2.2⟩
        · exact Or.inr ⟨List.mem_cons_of_mem _ hs2.1, hs2.2⟩
      · intro x hx hxp
        rcases List.mem_cons.1 hx with hx | hx
        · rw [hx]
          exact i4 pr.1
            ((mem_keysOf_setQueue hb pr.1 pr.1 _).2 (Or.inr rfl))
        · exact i3 x hx hxp
      · intro k hk
        exact i4 k ((mem_keysOf_setQueue hb pr.1 k _).2 (Or.inl hk))

/-- The facts about one rebuilt half-book after a snapshot. -/
theorem snapSide_facts (name : String) (ts : ℚ) (pairs : List (ℚ × ℚ)) :
    HalfInv (snapSide name ts pairs).2 (snapSide name ts pairs).1 ∧
      (∀ e ∈ (snapSide name ts pairs).1,
        ∃ s, e.2 = [⟨0, name, e.1, s, ts⟩] ∧ (e.1, s) ∈ pairs ∧ 0 < s) ∧
      (∀ pr ∈ pairs, 0 < pr.2 → pr.1 ∈ keysOf (snapSide name ts pairs).1) := by
  obtain ⟨i1, i2, i3, _⟩ :=
    snapFold name ts pairs [] [] (fun _ _ => False) HalfInv_nil
      (fun e he => absurd he (List.not_mem_nil e))
  refine ⟨i1, ?_, i3⟩
  intro e he
  refine (i2 e he).imp fun s hs => ⟨hs.1, ?_⟩
  rcases hs.2 with hs2 | hs2
  · exact absurd hs2 id
  · exact hs2

/-- `apply_snapshot` preserves (in fact re-establishes) the book
invariant. -/
theorem apply_snapshot_inv (ob : OrderBook) (bids asks : List (ℚ × ℚ))
    (ts : ℚ) : BookInv (apply_snapshot ob bids asks ts) :=
  ⟨(snapSide_facts "bid" ts bids).1, (snapSide_facts "ask" ts asks).1⟩

/-! ## The cancel scan -/

theorem flatQueues_nil : flatQueues [] = [] :=
  rfl

theorem flatQueues_cons (e : ℚ × List Order) (tl : HalfBook) :
    flatQueues (e :: tl) = e.2 ++ flatQueues tl := by
  simp [flatQueues]

theorem cancelInSide_none_iff (oid : Nat) (prices : List ℚ) :
    ∀ (hb : HalfBook), cancelInSide oid prices hb = none ↔
      ∀ o ∈ flatQueues hb, o.oid ≠ oid := by
  intro hb
  induction hb with
  | nil =>
    rw [cancelInSide, flatQueues_nil]
    simp
  | cons e tl ih =>
    obtain ⟨p, q⟩ := e
    rw [flatQueues_cons]
    by_cases hany : (q.any fun o => decide (o.oid = oid)) = true
    · obtain ⟨o, ho, hom⟩ : ∃ o ∈ q, o.oid = oid := by
        simpa using hany
      constructor
      · intro h
        exfalso
        rw [cancelInSide, if_pos hany] at h
        by_cases hq' : q.eraseP (fun o => decide (o.oid = oid)) = []
        · rw [if_pos hq'] at h
          exact Option.noConfusion h
        · rw [if_neg hq'] at h
          exact Option.noConfusion h
      · intro h
        exact absurd hom (h o (List.mem_append_left _ ho))
    · rw [cancelInSide, if_neg hany]
      have hq : ∀ o ∈ q, o.oid ≠ oid := by
        intro o ho hom
        exact hany (by simpa using ⟨o, ho, hom⟩)
      cases hrec : cancelInSide oid prices tl with
      | some r =>
        obtain ⟨r1, r2⟩ := r
        constructor
        · intro h
          exact Option.noConfusion h
        · intro h
          have : cancelInSide oid prices tl = none :=
            (ih).2 fun o ho => h o (List.mem_append_right _ ho)
          rw [hrec] at this
          exact Option.noConfusion this
      | none =>
        simp only []
        constructor
        · intro _ o ho
          rcases List.mem_append.1 ho with ho | ho
          · exact hq o ho
          · exact (ih.1 hrec) o ho
        · intro _
          trivial

theorem cancelInSide_some_facts (oid : Nat) :
    ∀ (hb : HalfBook) (prices : List ℚ) (hb' : HalfBook) (prices' : List ℚ),
      (keysOf hb).Nodup →
      cancelInSide oid prices hb = some (hb', prices') →
      flatQueues hb' = (flatQueues hb).eraseP (fun o => decide (o.oid = oid)) ∧
        ((prices' = prices ∧ keysOf hb' = keysOf hb) ∨
          (∃ pp, pp ∈ keysOf hb ∧ prices' = prices.erase pp ∧
            keysOf hb' = (keysOf hb).erase pp)) ∧
        ((∀ e ∈ hb, e.2 ≠ []) → ∀ e ∈ hb', e.2 ≠ []) ∧
        (SideNonneg hb → SideNonneg hb') := by
  intro hb
  induction hb with
  | nil =>
    intro prices hb' prices' _ h
    rw [cancelInSide] at h
    exact Option.noConfusion h
  | cons e tl ih =>
    intro prices hb' prices' hnd h
    obtain ⟨p, q⟩ := e
    rw [keysOf_cons, List.nodup_cons] at hnd
    by_cases hany : (q.any fun o => decide (o.oid = oid)) = true
    · obtain ⟨o, ho, hom⟩ : ∃ o ∈ q, o.oid = oid := by
        simpa using hany
      have herase : (q ++ flatQueues tl).eraseP (fun o => decide (o.oid = oid)) =
          q.eraseP (fun o => decide (o.oid = oid)) ++ flatQueues tl :=
        List.eraseP_append_left (by simpa using hom) _ ho
      rw [cancelInSide, if_pos hany] at h
      by_cases hq' : q.eraseP (fun o => decide (o.oid = oid)) = []
      · rw [if_pos hq'] at h
        obtain ⟨rfl, rfl⟩ : hb' = tl ∧ prices' = prices.erase p :=
          ⟨(congrArg Prod.fst (Option.some.inj h)).symm,
            (congrArg Prod.snd (Option.some.inj h)).symm⟩
        refine ⟨?_, Or.inr ⟨p, mem_keysOf_cons.2 (Or.inl rfl), rfl, ?_⟩, ?_, ?_⟩
        · rw [flatQueues_cons, herase, hq', List.nil_append]
        · rw [keysOf_cons, List.erase_cons_head]
        · intro hne e he
          exact hne e (List.mem_cons_of_mem _ he)
        · intro hnn e he o' ho'
          exact hnn e (List.mem_cons_of_mem _ he) o' ho'
      · rw [if_neg hq'] at h
        obtain ⟨rfl, rfl⟩ : hb' = (p, q.eraseP (fun o => decide (o.oid = oid))) :: tl ∧
            prices' = prices :=
          ⟨(congrArg Prod.fst (Option.some.inj h)).symm,
            (congrArg Prod.snd (Option.some.inj h)).symm⟩
        refine ⟨?_, Or.inl ⟨rfl, ?_⟩, ?_, ?_⟩
        · rw [flatQueues_cons, flatQueues_cons, herase]
        · rw [keysOf_cons, keysOf_cons]
        · intro hne e he
          rcases List.mem_cons.1 he with he | he
          · rw [he]
            exact hq'
          · exact hne e (List.mem_cons_of_mem _ he)
        · intro hnn e he o' ho'
          rcases List.mem_cons.1 he with he | he
          · have ho2 : o' ∈ q.eraseP (fun o => decide (o.oid = oid)) := by
              rw [he] at ho'
              exact ho'
            exact hnn (p, q) (List.mem_cons_self _ _) o'
              ((List.eraseP_sublist q).mem ho2)
          · exact hnn e (List.mem_cons_of_mem _ he) o' ho'
    · have hq : ∀ o ∈ q, ¬(fun o => decide (o.oid = oid)) o = true := by
        intro o ho hom
        exact hany (by simpa using ⟨o, ho, by simpa using hom⟩)
      rw [cancelInSide, if_neg hany] at h
      cases hrec : cancelInSide oid prices tl with
      | none =>
        rw [hrec] at h
        exact Option.noConfusion h
      | some r =>
        obtain ⟨r1, r2⟩ := r
        rw [hrec] at h
        obtain ⟨rfl, rfl⟩ : hb' = (p, q) :: r1 ∧ prices' = r2 :=
          ⟨(congrArg Prod.fst (Option.some.inj h)).symm,
            (congrArg Prod.snd (Option.some.inj h)).symm⟩
        obtain ⟨f1, f2, f3, f4⟩ := ih prices r1 prices' hnd.2 hrec
        refine ⟨?_, ?_, ?_, ?_⟩
        · rw [flatQueues_cons, flatQueues_cons, f1,
            List.eraseP_append_right _ hq]
        · rcases f2 with ⟨hpr, hk⟩ | ⟨pp, hpp, hpr, hk⟩
          · exact Or.inl ⟨hpr, by rw [keysOf_cons, keysOf_cons, hk]⟩
          · refine Or.inr ⟨pp, List.mem_cons_of_mem _ hpp, hpr, ?_⟩
            rw [keysOf_cons, keysOf_cons, hk, List.erase_cons_tail]
            simp only [beq_iff_eq]
            intro hcon
            exact hnd.1 (hcon ▸ hpp)
        · intro hne e he
          rcases List.mem_cons.1 he with he | he
          · rw [he]
            exact hne (p, q) (List.mem_cons_self _ _)
          · exact f3 (fun e' he' => hne e' (List.mem_cons_of_mem _ he')) e he
        · intro hnn e he o' ho'
          rcases List.mem_cons.1 he with he | he
          · rw [he] at ho'
            exact hnn (p, q) (List.mem_cons_self _ _) o' ho'
          · exact f4 (fun e' he' => hnn e' (List.mem_cons_of_mem _ he')) e he o' ho'

/-- Rebuild one half-book invariant from the cancel-scan facts. -/
theorem HalfInv_of_cancel {prices prices' : List ℚ} {hb hb' : HalfBook}
    (hinv : HalfInv prices hb)
    (hpr : (prices' = prices ∧ keysOf hb' = keysOf hb) ∨
      (∃ pp, pp ∈ keysOf hb ∧ prices' = prices.erase pp ∧
        keysOf hb' = (keysOf hb).erase pp))
    (hne : (∀ e ∈ hb, e.2 ≠ []) → ∀ e ∈ hb', e.2 ≠ []) :
    HalfInv prices' hb' := by
  obtain ⟨hpw, hndk, hco1, hco2, hqne⟩ := hinv
  rcases hpr with ⟨hpr, hk⟩ | ⟨pp, hpp, hpr, hk⟩
  · refine ⟨hpr ▸ hpw, hk ▸ hndk, ?_, ?_, hne hqne⟩
    · intro k hkk
      rw [hk]
      exact hco1 k (hpr ▸ hkk)
    · intro k hkk
      rw [hpr]
      exact hco2 k (hk ▸ hkk)
  · have hndp : prices.Nodup := pairwise_lt_nodup hpw
    refine ⟨?_, hk ▸ hndk.erase pp, ?_, ?_, hne hqne⟩
    · rw [hpr]
      exact List.Pairwise.sublist (List.erase_sublist pp prices) hpw
    · intro k hkk
      rw [hpr] at hkk
      obtain ⟨hk1, hk2⟩ := hndp.mem_erase_iff.1 hkk
      rw [hk]
      exact hndk.mem_erase_iff.2 ⟨hk1, hco1 k hk2⟩
    · intro k hkk
      rw [hk] at hkk
      obtain ⟨hk1, hk2⟩ := hndk.mem_erase_iff.1 hkk
      rw [hpr]
      exact hndp.mem_erase_iff.2 ⟨hk1, hco2 k hk2⟩

/-- `cancel_order`: the boolean reports whether an order with the id
rests in the book; on success exactly the first such order (in scan order)
is removed and the invariant survives; on failure the book is untouched. -/
theorem cancel_order_facts (ob : OrderBook) (oid : Nat) (h : BookInv ob) :
    ((cancel_order ob oid).2 = true ↔ ∃ o ∈ allOrders ob, o.oid = oid) ∧
      ((cancel_order ob oid).2 = true →
        allOrders (cancel_order ob oid).1 =
          (allOrders ob).eraseP (fun o => decide (o.oid = oid))) ∧
      BookInv (cancel_order ob oid).1 ∧
      ((cancel_order ob oid).2 = false → (cancel_order ob oid).1 = ob) := by
  obtain ⟨hbinv, hainv⟩ := h
  rw [cancel_order]
  cases hbscan : cancelInSide oid ob.bid_prices ob.bids with
  | some r =>
    obtain ⟨bids', prices'⟩ := r
    obtain ⟨f1, f2, f3, f4⟩ :=
      cancelInSide_some_facts oid ob.bids ob.bid_prices bids' prices'
        hbinv.2.1 hbscan
    have hexb : ∃ o ∈ flatQueues ob.bids, o.oid = oid := by
      by_contra hcon
      push_neg at hcon
      have hnone : cancelInSide oid ob.bid_prices ob.bids = none :=
        (cancelInSide_none_iff oid ob.bid_prices ob.bids).2 hcon
      rw [hbscan] at hnone
      exact Option.noConfusion hnone
    obtain ⟨o, ho, hom⟩ := hexb
    refine ⟨⟨fun _ => ⟨o, List.mem_append_left _ ho, hom⟩, fun _ => rfl⟩,
      fun _ => ?_, ⟨HalfInv_of_cancel hbinv f2 f3, hainv⟩,
      fun hf => Bool.noConfusion hf⟩
    show flatQueues bids' ++ flatQueues ob.asks = _
    rw [f1, allOrders,
      List.eraseP_append_left (by simpa using hom) (flatQueues ob.asks) ho]
  | none =>
    have hnob : ∀ o ∈ flatQueues ob.bids, o.oid ≠ oid :=
      (cancelInSide_none_iff oid ob.bid_prices ob.bids).1 hbscan
    cases hascan : cancelInSide oid ob.ask_prices ob.asks with
    | some r =>
      obtain ⟨asks', prices'⟩ := r
      obtain ⟨f1, f2, f3, f4⟩ :=
        cancelInSide_some_facts oid ob.asks ob.ask_prices asks' prices'
          hainv.2.1 hascan
      have hexa : ∃ o ∈ flatQueues ob.asks, o.oid = oid := by
        by_contra hcon
        push_neg at hcon
        have hnone : cancelInSide oid ob.ask_prices ob.asks = none :=
          (cancelInSide_none_iff oid ob.ask_prices ob.asks).2 hcon
        rw [hascan] at hnone
        exact Option.noConfusion hnone
      obtain ⟨o, ho, hom⟩ := hexa
      refine ⟨⟨fun _ => ⟨o, List.mem_append_right _ ho, hom⟩, fun _ => rfl⟩,
        fun _ => ?_, ⟨hbinv, HalfInv_of_cancel hainv f2 f3⟩,
        fun hf => Bool.noConfusion hf⟩
      show flatQueues ob.bids ++ flatQueues asks' = _
      rw [f1, allOrders, List.eraseP_append_right _
        (by intro b hb; simpa using hnob b hb)]
    | none =>
      have hnoa : ∀ o ∈ flatQueues ob.asks, o.oid ≠ oid :=
        (cancelInSide_none_iff oid ob.ask_prices ob.asks).1 hascan
      refine ⟨⟨fun hf => Bool.noConfusion hf, ?_⟩,
        fun hf => Bool.noConfusion hf, ⟨hbinv, hainv⟩, fun _ => rfl⟩
      rintro ⟨o, ho, hom⟩
      rcases List.mem_append.1 ho with ho | ho
      · exact absurd hom (hnob o ho)
      · exact absurd hom (hnoa o ho)

/-- Every public call preserves the book invariant. -/
theorem applyOp_inv (ob : OrderBook) (op : BookOp) (h : BookInv ob) :
    BookInv (applyOp ob op) := by
  cases op with
  | snap b a ts => exact apply_snapshot_inv ob b a ts
  | limit side p s ts => exact place_limit_order_inv ob side p s ts h
  | cancel oid => exact (cancel_order_facts ob oid h).2.2.1
  | trade p s ts => exact process_trade_inv ob p s ts h

theorem BookInv_initBook : BookInv initBook :=
  ⟨HalfInv_nil, HalfInv_nil⟩

theorem foldl_applyOp_inv (l : List BookOp) :
    ∀ (ob : OrderBook), BookInv ob → BookInv (l.foldl applyOp ob) := by
  induction l with
  | nil => intro ob h; exact h
  | cons op rest ih =>
    intro ob h
    rw [List.foldl_cons]
    exact ih _ (applyOp_inv ob op h)

theorem applyOps_inv (ops : List BookOp) : BookInv (applyOps ops) :=
  foldl_applyOp_inv ops initBook BookInv_initBook

/-! ## The claims -/

/-- C5: for every sequence of public order-book operations
(`apply_snapshot`, `place_limit_order`, `cancel_order`, `process_trade`)
from a fresh book, after each operation every price listed in the active
bid or ask level set has a non-empty order queue, and every price with a
queue in the half-book maps is listed in the corresponding level set — no
price level with an empty queue ever remains active.  (Quantifying over
all operation sequences covers "after each operation": every prefix is
itself a sequence.) -/
theorem C5_remove_on_empty (ops : List BookOp) :
    (∀ p ∈ (applyOps ops).bid_prices, getQueue (applyOps ops).bids p ≠ []) ∧
      (∀ p ∈ (applyOps ops).ask_prices, getQueue (applyOps ops).asks p ≠ []) ∧
      (∀ p ∈ keysOf (applyOps ops).bids, p ∈ (applyOps ops).bid_prices) ∧
      (∀ p ∈ keysOf (applyOps ops).asks, p ∈ (applyOps ops).ask_prices) := by
  obtain ⟨⟨_, _, bco1, bco2, bne⟩, ⟨_, _, aco1, aco2, ane⟩⟩ := applyOps_inv ops
  refine ⟨?_, ?_, bco2, aco2⟩
  · intro p hp
    exact bne _ (getQueue_mem _ p (bco1 p hp))
  · intro p hp
    exact ane _ (getQueue_mem _ p (aco1 p hp))

/-- Witness for C5 at a concrete operation sequence. -/
theorem C5_witness :
    (99 : ℚ) ∈ (applyOps [.snap [(99, 10)] [(101, 10)] 0, .limit "bid" 99 2 1,
        .trade 101 3 2]).bid_prices ∧
      getQueue (applyOps [.snap [(99, 10)] [(101, 10)] 0, .limit "bid" 99 2 1,
        .trade 101 3 2]).bids 99 ≠ [] := by
  refine ⟨by decide, ?_⟩
  exact (C5_remove_on_empty [.snap [(99, 10)] [(101, 10)] 0, .limit "bid" 99 2 1,
    .trade 101 3 2]).1 99 (by decide)

/-- C9: `cancel_order(id)` returns `True` and removes exactly one order
bearing that identifier (the first in scan order — the resulting order list
is the `eraseP` of the original), re-applying remove-on-empty so the book
invariant survives, when such an order rests in either half-book; and
returns `False` with the book completely unchanged — it is a total
function, never an exception — when no such order is present. -/
theorem C9_cancel_order (ob : OrderBook) (oid : Nat) (hinv : BookInv ob) :
    ((cancel_order ob oid).2 = true ↔ ∃ o ∈ allOrders ob, o.oid = oid) ∧
      ((cancel_order ob oid).2 = true →
        allOrders (cancel_order ob oid).1 =
          (allOrders ob).eraseP (fun o => decide (o.oid = oid))) ∧
      BookInv (cancel_order ob oid).1 ∧
      ((cancel_order ob oid).2 = false → (cancel_order ob oid).1 = ob) :=
  cancel_order_facts ob oid hinv

/-- Witness for C9: cancelling a resting order succeeds; cancelling an
unknown identifier reports `false` and leaves the book untouched. -/
theorem C9_witness :
    BookInv (place_limit_order (apply_snapshot initBook [(99, 2)] [] 0)
        "bid" 99 3 1).1 ∧
      (cancel_order (place_limit_order (apply_snapshot initBook [(99, 2)] [] 0)
        "bid" 99 3 1).1 1).2 = true ∧
      (cancel_order (place_limit_order (apply_snapshot initBook [(99, 2)] [] 0)
        "bid" 99 3 1).1 77).2 = false ∧
      (cancel_order (place_limit_order (apply_snapshot initBook [(99, 2)] [] 0)
        "bid" 99 3 1).1 77).1 =
        (place_limit_order (apply_snapshot initBook [(99, 2)] [] 0)
          "bid" 99 3 1).1 := by
  have h1 := C9_cancel_order (place_limit_order
    (apply_snapshot initBook [(99, 2)] [] 0) "bid" 99 3 1).1 1 (by decide)
  have h2 := C9_cancel_order (place_limit_order
    (apply_snapshot initBook [(99, 2)] [] 0) "bid" 99 3 1).1 77 (by decide)
  have hno : ¬∃ o ∈ allOrders (place_limit_order
      (apply_snapshot initBook [(99, 2)] [] 0) "bid" 99 3 1).1, o.oid = 77 := by
    decide
  have hf : (cancel_order (place_limit_order
      (apply_snapshot initBook [(99, 2)] [] 0) "bid" 99 3 1).1 77).2 = false := by
    cases h : (cancel_order (place_limit_order
        (apply_snapshot initBook [(99, 2)] [] 0) "bid" 99 3 1).1 77).2
    · rfl
    · exact absurd (h2.1.1 h) hno
  refine ⟨by decide, ?_, hf, h2.2.2.2 hf⟩
  exact h1.1.2 ⟨⟨1, "bid", 99, 3, 1⟩, by decide, rfl⟩

/-- C1: on a well-formed book, `process_trade(price, size, ts)` returns
fills whose total quantity is exactly `min(size, A)`, where `A` is the
aggregate remaining size of the levels on the swept side whose prices meet
the direction condition against `price`; the swept side's total liquidity
drops by exactly that amount while the other side is untouched; and any
excess trade size is simply discarded (in the no-sweep case the book is
unchanged apart from its clock and no error can occur — the function is
total). -/
theorem C1_sweep_conservation (ob : OrderBook) (price size ts : ℚ)
    (hinv : BookInv ob) (hbz : SideNonneg ob.bids) (haz : SideNonneg ob.asks)
    (hsz : 0 ≤ size) :
    sumQty (process_trade ob price size ts).2 = min size (sweptLiq ob price) ∧
      (askCond ob price = true →
        sideTotal (process_trade ob price size ts).1.asks =
          sideTotal ob.asks - sumQty (process_trade ob price size ts).2 ∧
        (process_trade ob price size ts).1.bids = ob.bids ∧
        (process_trade ob price size ts).1.bid_prices = ob.bid_prices) ∧
      (askCond ob price = false → bidCond ob price = true →
        sideTotal (process_trade ob price size ts).1.bids =
          sideTotal ob.bids - sumQty (process_trade ob price size ts).2 ∧
        (process_trade ob price size ts).1.asks = ob.asks ∧
        (process_trade ob price size ts).1.ask_prices = ob.ask_prices) ∧
      (askCond ob price = false → bidCond ob price = false →
        (process_trade ob price size ts).2 = [] ∧
        (process_trade ob price size ts).1 = { ob with time := ts }) := by
  obtain ⟨hbinv, hainv⟩ := hinv
  rw [process_trade]
  by_cases ha : askCond ob price = true
  · rw [if_pos (show askCond { ob with time := ts } price = true from ha)]
    obtain ⟨apw, andk, aco1, aco2, ane⟩ := hainv
    obtain ⟨s1, s2, _, _, _, _, _, _, _⟩ :=
      sweepSide_main true price ob.ask_prices.length size ob.ask_prices
        ob.asks (le_refl _) hsz aco2 aco1 andk (pairwise_lt_nodup apw) haz
    refine ⟨?_, fun _ => ⟨s2, rfl, rfl⟩,
      fun hf => absurd (ha.symm.trans hf) (by decide),
      fun hf => absurd (ha.symm.trans hf) (by decide)⟩
    rw [sweptLiq, if_pos ha]
    exact s1
  · have haf : askCond ob price = false := by
      cases h : askCond ob price
      · rfl
      · exact absurd h ha
    rw [if_neg (show ¬askCond { ob with time := ts } price = true from ha)]
    by_cases hbc : bidCond ob price = true
    · rw [if_pos (show bidCond { ob with time := ts } price = true from hbc)]
      obtain ⟨bpw, bndk, bco1, bco2, bne⟩ := hbinv
      obtain ⟨s1, s2, _, _, _, _, _, _, _⟩ :=
        sweepSide_main false price ob.bid_prices.length size ob.bid_prices
          ob.bids (le_refl _) hsz bco2 bco1 bndk (pairwise_lt_nodup bpw) hbz
      refine ⟨?_, fun hf => absurd (hf.symm.trans haf) (by decide),
        fun _ _ => ⟨s2, rfl, rfl⟩,
        fun _ hf => absurd (hbc.symm.trans hf) (by decide)⟩
      rw [sweptLiq, if_neg (by rw [haf]; exact Bool.false_ne_true), if_pos hbc]
      exact s1
    · have hbf : bidCond ob price = false := by
        cases h : bidCond ob price
        · rfl
        · exact absurd h hbc
      rw [if_neg (show ¬bidCond { ob with time := ts } price = true from hbc)]
      refine ⟨?_, fun hf => absurd (hf.symm.trans haf) (by decide),
        fun _ hf => absurd (hf.symm.trans hbf) (by decide),
        fun _ _ => ⟨rfl, rfl⟩⟩
      rw [sweptLiq, if_neg (by rw [haf]; exact Bool.false_ne_true),
        if_neg (by rw [hbf]; exact Bool.false_ne_true)]
      show sumQty [] = min size 0
      rw [sumQty_nil, min_eq_right hsz]

/-- Witness for C1: a trade of size 7 sweeping a two-level ask book with
aggregate eligible liquidity 10. -/
theorem C1_witness :
    BookInv (apply_snapshot initBook [(99, 10), (98, 5)] [(101, 4), (102, 6)] 0) ∧
      sumQty (process_trade
        (apply_snapshot initBook [(99, 10), (98, 5)] [(101, 4), (102, 6)] 0)
        102 7 1).2 =
        min 7 (sweptLiq
          (apply_snapshot initBook [(99, 10), (98, 5)] [(101, 4), (102, 6)] 0)
          102) := by
  refine ⟨by decide, ?_⟩
  exact (C1_sweep_conservation
    (apply_snapshot initBook [(99, 10), (98, 5)] [(101, 4), (102, 6)] 0)
    102 7 1 (by decide) (by decide) (by decide) (by norm_num)).1

theorem askCond_iff (ob : OrderBook) (price : ℚ) :
    askCond ob price = true ↔ ∃ a, (top_of_book ob).2 = some a ∧ a ≤ price := by
  rw [askCond, top_of_book]
  cases h : ob.ask_prices.min? with
  | none =>
    simp only []
    constructor
    · intro hf
      exact absurd hf (by decide)
    · rintro ⟨a, ha, _⟩
      exact Option.noConfusion ha
  | some m =>
    simp only [decide_eq_true_eq]
    constructor
    · intro hm
      exact ⟨m, rfl, hm⟩
    · rintro ⟨a, ha, hle⟩
      cases Option.some.inj ha
      exact hle

theorem bidCond_iff (ob : OrderBook) (price : ℚ) :
    bidCond ob price = true ↔ ∃ b, (top_of_book ob).1 = some b ∧ price ≤ b := by
  rw [bidCond, top_of_book]
  cases h : ob.bid_prices.max? with
  | none =>
    simp only []
    constructor
    · intro hf
      exact absurd hf (by decide)
    · rintro ⟨b, hb, _⟩
      exact Option.noConfusion hb
  | some m =>
    simp only [decide_eq_true_eq]
    constructor
    · intro hm
      exact ⟨m, rfl, hm⟩
    · rintro ⟨b, hb, hle⟩
      cases Option.some.inj hb
      exact hle

/-- C2 counterexample: after a (transiently crossed) snapshot with best bid
`100` and best ask `90`, the bid side is non-empty and the trade price `95`
is at most the best bid, yet `process_trade` sweeps the asks and every
returned fill is tagged `"sell"`, not `"buy"` — the `elif` gives the ask
branch priority. -/
theorem C2_counterexample :
    (top_of_book (apply_snapshot initBook [(100, 5)] [(90, 5)] 0)).1 =
        some 100 ∧
      (95 : ℚ) ≤ 100 ∧
      (process_trade (apply_snapshot initBook [(100, 5)] [(90, 5)] 0)
          95 3 1).2 = [⟨"sell", 90, 3⟩] ∧
      ("sell" : String) ≠ "buy" := by
  refine ⟨by decide, by norm_num, ?_, by decide⟩
  norm_num [process_trade, askCond, bidCond, sweepSide, bestPrice, dirOK,
    fillTag, drainQueue, getQueue, setQueue, eraseKey, removePriceIfEmpty,
    apply_snapshot, snapSide, snapStep, insertPrice, insort, initBook,
    List.min?, List.max?]

/-- C2 (amended): if the ask side is non-empty and the price is at least
the best ask, asks are swept and every fill is tagged `"sell"`; *otherwise*
if the bid side is non-empty and the price is at most the best bid, bids
are swept and every fill is tagged `"buy"`; when neither holds — in
particular whenever the price lies strictly between best bid and best
ask — the fill list is empty and no error is raised.  (The source's
`elif` gives the ask branch priority in a crossed book, which is the only
change forced by the counterexample.) -/
theorem C2_direction_amended (ob : OrderBook) (price size ts : ℚ) :
    (askCond ob price = true ↔
        ∃ a, (top_of_book ob).2 = some a ∧ a ≤ price) ∧
      (bidCond ob price = true ↔
        ∃ b, (top_of_book ob).1 = some b ∧ price ≤ b) ∧
      (askCond ob price = true →
        ∀ f ∈ (process_trade ob price size ts).2, f.side = "sell") ∧
      (askCond ob price = false → bidCond ob price = true →
        ∀ f ∈ (process_trade ob price size ts).2, f.side = "buy") ∧
      (askCond ob price = false → bidCond ob price = false →
        (process_trade ob price size ts).2 = []) ∧
      (∀ b a, (top_of_book ob).1 = some b → (top_of_book ob).2 = some a →
        b < price → price < a → (process_trade ob price size ts).2 = []) := by
  refine ⟨askCond_iff ob price, bidCond_iff ob price, ?_, ?_, ?_, ?_⟩
  · intro ha f hf
    rw [process_trade] at hf
    rw [if_pos (show askCond { ob with time := ts } price = true from ha)] at hf
    exact ((sweepSide_fills true price ob.ask_prices.length size ob.ask_prices
      ob.asks (le_refl _)).1 f hf).1
  · intro haf hbc f hf
    have ha : ¬askCond ob price = true := by
      rw [haf]
      exact Bool.false_ne_true
    rw [process_trade] at hf
    rw [if_neg (show ¬askCond { ob with time := ts } price = true from ha),
      if_pos (show bidCond { ob with time := ts } price = true from hbc)] at hf
    exact ((sweepSide_fills false price ob.bid_prices.length size ob.bid_prices
      ob.bids (le_refl _)).1 f hf).1
  · intro haf hbf
    have ha : ¬askCond ob price = true := by
      rw [haf]
      exact Bool.false_ne_true
    have hbc : ¬bidCond ob price = true := by
      rw [hbf]
      exact Bool.false_ne_true
    rw [process_trade,
      if_neg (show ¬askCond { ob with time := ts } price = true from ha),
      if_neg (show ¬bidCond { ob with time := ts } price = true from hbc)]
  · intro b a hb ha hbp hpa
    have haf : askCond ob price = false := by
      cases h : askCond ob price
      · rfl
      · obtain ⟨a', ha', hle⟩ := (askCond_iff ob price).1 h
        rw [ha] at ha'
        cases Option.some.inj ha'
        exact absurd hle (not_le.2 hpa)
    have hbf : bidCond ob price = false := by
      cases h : bidCond ob price
      · rfl
      · obtain ⟨b', hb', hle⟩ := (bidCond_iff ob price).1 h
        rw [hb] at hb'
        cases Option.some.inj hb'
        exact absurd hle (not_le.2 hbp)
    have ha' : ¬askCond ob price = true := by
      rw [haf]
      exact Bool.false_ne_true
    have hb' : ¬bidCond ob price = true := by
      rw [hbf]
      exact Bool.false_ne_true
    rw [process_trade,
      if_neg (show ¬askCond { ob with time := ts } price = true from ha'),
      if_neg (show ¬bidCond { ob with time := ts } price = true from hb')]

/-- Witness for C2 (amended), discharging each clause's hypotheses on a
normal (uncrossed) book. -/
theorem C2_witness :
    (∀ f ∈ (process_trade (apply_snapshot initBook [(99, 10)] [(101, 4)] 0)
        102 3 1).2, f.side = "sell") ∧
      (∀ f ∈ (process_trade (apply_snapshot initBook [(99, 10)] [(101, 4)] 0)
        99 3 1).2, f.side = "buy") ∧
      (process_trade (apply_snapshot initBook [(99, 10)] [(101, 4)] 0)
        100 3 1).2 = [] := by
  refine ⟨?_, ?_, ?_⟩
  · exact (C2_direction_amended
      (apply_snapshot initBook [(99, 10)] [(101, 4)] 0) 102 3 1).2.2.1
      (by decide)
  · exact (C2_direction_amended
      (apply_snapshot initBook [(99, 10)] [(101, 4)] 0) 99 3 1).2.2.2.1
      (by decide) (by decide)
  · exact (C2_direction_amended
      (apply_snapshot initBook [(99, 10)] [(101, 4)] 0) 100 3 1).2.2.2.2.2
      99 101 (by decide) (by decide) (by norm_num) (by norm_num)

/-- C3: `place_limit_order` appends at the tail of the side/price queue
(arrival order is queue order), a trade consumes each touched level's queue
strictly front to back — the earlier-placed order is fully drained before a
later one contributes — and the returned fill list is ordered best price
first (ascending prices when asks are swept, descending when bids are
swept; within one level all fills carry that level's price, FIFO by the
queue consumption). -/
theorem C3_fifo (ob : OrderBook) (price size ts : ℚ)
    (hinv : BookInv ob) (hbz : SideNonneg ob.bids) (haz : SideNonneg ob.asks)
    (hsz : 0 ≤ size) :
    (∀ p sz t, getQueue (place_limit_order ob "bid" p sz t).1.bids p =
        getQueue ob.bids p ++ [⟨ob.next_oid, "bid", p, sz, t⟩]) ∧
      (∀ p sz t, getQueue (place_limit_order ob "ask" p sz t).1.asks p =
        getQueue ob.asks p ++ [⟨ob.next_oid, "ask", p, sz, t⟩]) ∧
      (∀ p, fifoConsumed (getQueue (process_trade ob price size ts).1.bids p)
        (getQueue ob.bids p)) ∧
      (∀ p, fifoConsumed (getQueue (process_trade ob price size ts).1.asks p)
        (getQueue ob.asks p)) ∧
      ((process_trade ob price size ts).2.map (fun f => f.price)).Pairwise
        (fun a b => (askCond ob price = true → a ≤ b) ∧
          (askCond ob price = false → b ≤ a)) := by
  obtain ⟨⟨bpw, bndk, bco1, bco2, bne⟩, ⟨apw, andk, aco1, aco2, ane⟩⟩ := hinv
  refine ⟨?_, ?_, ?_, ?_, ?_⟩
  · intro p sz t
    rw [place_limit_order]
    rw [if_pos rfl]
    exact getQueue_setQueue_self ob.bids p _
  · intro p sz t
    rw [place_limit_order]
    rw [if_neg (by decide)]
    exact getQueue_setQueue_self ob.asks p _
  · intro p
    rw [process_trade]
    by_cases ha : askCond ob price = true
    · rw [if_pos (show askCond { ob with time := ts } price = true from ha)]
      exact fifoConsumed_refl _
    · rw [if_neg (show ¬askCond { ob with time := ts } price = true from ha)]
      by_cases hbc : bidCond ob price = true
      · rw [if_pos (show bidCond { ob with time := ts } price = true from hbc)]
        exact sweepSide_fifo false price ob.bid_prices.length size
          ob.bid_prices ob.bids (le_refl _) hsz bco2 bco1 bndk
          (pairwise_lt_nodup bpw) hbz p
      · rw [if_neg (show ¬bidCond { ob with time := ts } price = true from hbc)]
        exact fifoConsumed_refl _
  · intro p
    rw [process_trade]
    by_cases ha : askCond ob price = true
    · rw [if_pos (show askCond { ob with time := ts } price = true from ha)]
      exact sweepSide_fifo true price ob.ask_prices.length size
        ob.ask_prices ob.asks (le_refl _) hsz aco2 aco1 andk
        (pairwise_lt_nodup apw) haz p
    · rw [if_neg (show ¬askCond { ob with time := ts } price = true from ha)]
      by_cases hbc : bidCond ob price = true
      · rw [if_pos (show bidCond { ob with time := ts } price = true from hbc)]
        exact fifoConsumed_refl _
      · rw [if_neg (show ¬bidCond { ob with time := ts } price = true from hbc)]
        exact fifoConsumed_refl _
  · rw [process_trade]
    by_cases ha : askCond ob price = true
    · rw [if_pos (show askCond { ob with time := ts } price = true from ha)]
      refine List.Pairwise.imp ?_
        (sweepSide_fills true price ob.ask_prices.length size ob.ask_prices
          ob.asks (le_refl _)).2
      intro a b hab
      refine ⟨fun _ => ?_, fun hf => absurd (ha.symm.trans hf) (by decide)⟩
      rw [fillOrd, if_pos rfl] at hab
      exact hab
    · have haf : askCond ob price = false := by
        cases h : askCond ob price
        · rfl
        · exact absurd h ha
      rw [if_neg (show ¬askCond { ob with time := ts } price = true from ha)]
      by_cases hbc : bidCond ob price = true
      · rw [if_pos (show bidCond { ob with time := ts } price = true from hbc)]
        refine List.Pairwise.imp ?_
          (sweepSide_fills false price ob.bid_prices.length size ob.bid_prices
            ob.bids (le_refl _)).2
        intro a b hab
        refine ⟨fun hf => absurd (hf.symm.trans haf) (by decide), fun _ => ?_⟩
        rw [fillOrd, if_neg (by decide)] at hab
        exact hab
      · rw [if_neg (show ¬bidCond { ob with time := ts } price = true from hbc)]
        exact List.Pairwise.nil

/-- Witness for C3: three asks placed A, B, C at one price, then a
partially consuming trade. -/
theorem C3_witness :
    BookInv (place_limit_order (place_limit_order (place_limit_order initBook
        "ask" 10 3 0).1 "ask" 10 4 1).1 "ask" 10 5 2).1 ∧
      fifoConsumed
        (getQueue (process_trade (place_limit_order (place_limit_order
          (place_limit_order initBook "ask" 10 3 0).1 "ask" 10 4 1).1
          "ask" 10 5 2).1 10 5 3).1.asks 10)
        (getQueue (place_limit_order (place_limit_order (place_limit_order
          initBook "ask" 10 3 0).1 "ask" 10 4 1).1 "ask" 10 5 2).1.asks 10) := by
  refine ⟨by decide, ?_⟩
  exact (C3_fifo (place_limit_order (place_limit_order (place_limit_order
    initBook "ask" 10 3 0).1 "ask" 10 4 1).1 "ask" 10 5 2).1 10 5 3
    (by decide) (by decide) (by decide) (by norm_num)).2.2.2.1 10

/-- The last positive size the snapshot loop writes at price `p` (dict
assignment semantics: a later pair with the same price overwrites the
earlier one; nonpositive sizes are skipped). -/
def lastSize (p : ℚ) (pairs : List (ℚ × ℚ)) : Option ℚ :=
  pairs.foldl (fun acc pr =>
    if pr.2 ≤ 0 then acc else if pr.1 = p then some pr.2 else acc) none

theorem lastSize_some (p : ℚ) :
    ∀ (pairs : List (ℚ × ℚ)) (v : ℚ),
      pairs.foldl (fun acc pr =>
        if pr.2 ≤ 0 then acc else if pr.1 = p then some pr.2 else acc)
        (some v) = some ((lastSize p pairs).getD v) := by
  intro pairs
  induction pairs with
  | nil => intro v; rfl
  | cons pr rest ih =>
    intro v
    rw [List.foldl_cons]
    have hls : lastSize p (pr :: rest) = (rest.foldl (fun acc pr =>
        if pr.2 ≤ 0 then acc else if pr.1 = p then some pr.2 else acc)
        (if pr.2 ≤ 0 then none else if pr.1 = p then some pr.2 else none)) := by
      rw [lastSize, List.foldl_cons]
    by_cases h1 : pr.2 ≤ 0
    · rw [if_pos h1, ih v, hls, if_pos h1]
      rfl
    · by_cases h2 : pr.1 = p
      · rw [if_neg h1, if_pos h2, ih pr.2, hls, if_neg h1, if_pos h2,
          ih pr.2]
        rfl
      · rw [if_neg h1, if_neg h2, ih v, hls, if_neg h1, if_neg h2]
        rfl

/-- What one side of the snapshot fold leaves at price `p`: the last
positive write there, else whatever the accumulator held. -/
theorem snapFold_queue_at (name : String) (ts p : ℚ) :
    ∀ (pairs : List (ℚ × ℚ)) (hb : HalfBook) (prices : List ℚ),
      getQueue (pairs.foldl (snapStep name ts) (hb, prices)).1 p =
        (lastSize p pairs).elim (getQueue hb p)
          (fun s => [⟨0, name, p, s, ts⟩]) := by
  intro pairs
  induction pairs with
  | nil => intro hb prices; rfl
  | cons pr rest ih =>
    intro hb prices
    rw [List.foldl_cons]
    have hls : lastSize p (pr :: rest) = (rest.foldl (fun acc pr =>
        if pr.2 ≤ 0 then acc else if pr.1 = p then some pr.2 else acc)
        (if pr.2 ≤ 0 then none else if pr.1 = p then some pr.2 else none)) := by
      rw [lastSize, List.foldl_cons]
    by_cases h1 : pr.2 ≤ 0
    · rw [snapStep, if_pos h1, ih hb prices, hls, if_pos h1]
      rfl
    · by_cases h2 : pr.1 = p
      · rw [snapStep, if_neg h1, ih _ _, hls, if_neg h1, if_pos h2,
          lastSize_some p rest pr.2]
        subst h2
        rw [getQueue_setQueue_self]
        cases hrest : lastSize pr.1 rest with
        | none => rfl
        | some s => rfl
      · rw [snapStep, if_neg h1, ih _ _, hls, if_neg h1, if_neg h2,
          getQueue_setQueue_ne hb pr.1 p _ (fun hh => h2 hh.symm)]
        rfl

/-- The queue one rebuilt half-book holds at price `p` after a snapshot. -/
theorem snapSide_queue_at (name : String) (ts : ℚ) (pairs : List (ℚ × ℚ))
    (p : ℚ) :
    getQueue (snapSide name ts pairs).1 p =
      (lastSize p pairs).elim [] (fun s => [⟨0, name, p, s, ts⟩]) := by
  rw [snapSide]
  exact snapFold_queue_at name ts p pairs [] []

/-- Which prices one rebuilt half-book lists after a snapshot: exactly the
prices carrying at least one positive supplied size. -/
theorem snapSide_prices_iff (name : String) (ts : ℚ) (pairs : List (ℚ × ℚ))
    (p : ℚ) :
    p ∈ (snapSide name ts pairs).2 ↔ ∃ s, (p, s) ∈ pairs ∧ 0 < s := by
  obtain ⟨⟨_, _, hco1, hco2, _⟩, hdesc, hinst⟩ := snapSide_facts name ts pairs
  constructor
  · intro hp
    have hk := hco1 p hp
    rw [keysOf] at hk
    obtain ⟨e, he, hep⟩ := List.mem_map.1 hk
    obtain ⟨s, _, hmem, hpos⟩ := hdesc e he
    refine ⟨s, ?_, hpos⟩
    rw [← hep]
    exact hmem
  · rintro ⟨s, hmem, hpos⟩
    exact hco2 p (hinst (p, s) hmem hpos)

theorem rat_max?_eq_some_iff (l : List ℚ) (a : ℚ) :
    l.max? = some a ↔ a ∈ l ∧ ∀ b ∈ l, b ≤ a := by
  haveI : Std.Antisymm ((· : ℚ) ≤ ·) := ⟨fun h h2 => le_antisymm h h2⟩
  exact List.max?_eq_some_iff (fun x => le_refl x) (fun x y => max_choice x y)
    (fun _ _ _ => max_le_iff)

theorem rat_min?_eq_some_iff (l : List ℚ) (a : ℚ) :
    l.min? = some a ↔ a ∈ l ∧ ∀ b ∈ l, a ≤ b := by
  haveI : Std.Antisymm ((· : ℚ) ≤ ·) := ⟨fun h h2 => le_antisymm h h2⟩
  exact List.min?_eq_some_iff (fun x => le_refl x) (fun x y => min_choice x y)
    (fun _ _ _ => le_min_iff)

/-- C4 counterexample: the snapshot `[(100, 5), (100, 7)]` supplies two
positive-size pairs, yet the rebuilt book holds a single synthetic order —
dict assignment collapses duplicate prices, the last size winning — so the
book does not contain one order per supplied positive pair. -/
theorem C4_counterexample :
    (([((100 : ℚ), (5 : ℚ)), (100, 7)].filter
        (fun pr => decide (0 < pr.2))).length = 2) ∧
      allOrders (apply_snapshot initBook [(100, 5), (100, 7)] [] 0) =
        [⟨0, "bid", 100, 7, 0⟩] ∧
      (2 : Nat) ≠ 1 := by
  refine ⟨by decide, by decide, by decide⟩

/-- C4 (amended): `apply_snapshot` rebuilds the book independently of any
prior state (no resting order survives), sets the time, and installs, per
*distinct* price with at least one positive supplied size, exactly one
synthetic order with identifier `0` whose size is the *last* positive size
supplied at that price (dict overwrite); pairs with size ≤ 0 are dropped
silently; `top_of_book` returns exactly the best (max bid / min ask) of
the surviving prices. -/
theorem C4_amended (ob : OrderBook) (bids asks : List (ℚ × ℚ)) (ts : ℚ) :
    ((apply_snapshot ob bids asks ts).bids =
        (apply_snapshot initBook bids asks ts).bids ∧
      (apply_snapshot ob bids asks ts).asks =
        (apply_snapshot initBook bids asks ts).asks ∧
      (apply_snapshot ob bids asks ts).bid_prices =
        (apply_snapshot initBook bids asks ts).bid_prices ∧
      (apply_snapshot ob bids asks ts).ask_prices =
        (apply_snapshot initBook bids asks ts).ask_prices ∧
      (apply_snapshot ob bids asks ts).time = ts) ∧
      (∀ p, getQueue (apply_snapshot ob bids asks ts).bids p =
        (lastSize p bids).elim [] (fun s => [⟨0, "bid", p, s, ts⟩])) ∧
      (∀ p, getQueue (apply_snapshot ob bids asks ts).asks p =
        (lastSize p asks).elim [] (fun s => [⟨0, "ask", p, s, ts⟩])) ∧
      (∀ p, p ∈ (apply_snapshot ob bids asks ts).bid_prices ↔
        ∃ s, (p, s) ∈ bids ∧ 0 < s) ∧
      (∀ p, p ∈ (apply_snapshot ob bids asks ts).ask_prices ↔
        ∃ s, (p, s) ∈ asks ∧ 0 < s) ∧
      (∀ p, (top_of_book (apply_snapshot ob bids asks ts)).1 = some p ↔
        ((∃ s, (p, s) ∈ bids ∧ 0 < s) ∧
          ∀ q s, (q, s) ∈ bids → 0 < s → q ≤ p)) ∧
      (∀ p, (top_of_book (apply_snapshot ob bids asks ts)).2 = some p ↔
        ((∃ s, (p, s) ∈ asks ∧ 0 < s) ∧
          ∀ q s, (q, s) ∈ asks → 0 < s → p ≤ q)) := by
  refine ⟨⟨rfl, rfl, rfl, rfl, rfl⟩, ?_, ?_, ?_, ?_, ?_, ?_⟩
  · intro p
    exact snapSide_queue_at "bid" ts bids p
  · intro p
    exact snapSide_queue_at "ask" ts asks p
  · intro p
    exact snapSide_prices_iff "bid" ts bids p
  · intro p
    exact snapSide_prices_iff "ask" ts asks p
  · intro p
    constructor
    · intro h
      obtain ⟨hm, hle⟩ := (rat_max?_eq_some_iff (snapSide "bid" ts bids).2 p).1 h
      refine ⟨(snapSide_prices_iff "bid" ts bids p).1 hm, ?_⟩
      intro q s hqs hpos
      exact hle q ((snapSide_prices_iff "bid" ts bids q).2 ⟨s, hqs, hpos⟩)
    · rintro ⟨hex, hub⟩
      refine (rat_max?_eq_some_iff (snapSide "bid" ts bids).2 p).2
        ⟨(snapSide_prices_iff "bid" ts bids p).2 hex, ?_⟩
      intro b hb
      obtain ⟨s, hbs, hpos⟩ := (snapSide_prices_iff "bid" ts bids b).1 hb
      exact hub b s hbs hpos
  · intro p
    constructor
    · intro h
      obtain ⟨hm, hle⟩ := (rat_min?_eq_some_iff (snapSide "ask" ts asks).2 p).1 h
      refine ⟨(snapSide_prices_iff "ask" ts asks p).1 hm, ?_⟩
      intro q s hqs hpos
      exact hle q ((snapSide_prices_iff "ask" ts asks q).2 ⟨s, hqs, hpos⟩)
    · rintro ⟨hex, hub⟩
      refine (rat_min?_eq_some_iff (snapSide "ask" ts asks).2 p).2
        ⟨(snapSide_prices_iff "ask" ts asks p).2 hex, ?_⟩
      intro b hb
      obtain ⟨s, hbs, hpos⟩ := (snapSide_prices_iff "ask" ts asks b).1 hb
      exact hub b s hbs hpos

/-- Witness for C4 (amended) on the duplicate-price snapshot: the single
surviving queue, the installed price, and the resulting top of book. -/
theorem C4_witness :
    getQueue (apply_snapshot initBook [(100, 5), (100, 7)] [] 0).bids 100 =
        [⟨0, "bid", 100, 7, 0⟩] ∧
      (∃ s, ((100 : ℚ), s) ∈ ([(100, 5), (100, 7)] : List (ℚ × ℚ)) ∧ 0 < s) ∧
      (top_of_book (apply_snapshot initBook [(100, 5), (100, 7)] [] 0)).1 =
        some 100 := by
  have h := C4_amended initBook [(100, 5), (100, 7)] [] 0
  refine ⟨?_, ?_, ?_⟩
  · rw [h.2.1 100]
    decide
  · exact (h.2.2.2.1 100).1 (by decide)
  · refine (h.2.2.2.2.2.1 100).2 ⟨⟨7, by decide, by norm_num⟩, ?_⟩
    intro q s hm _
    simp only [List.mem_cons, List.not_mem_nil, or_false, Prod.mk.injEq] at hm
    rcases hm with ⟨rfl, rfl⟩ | ⟨rfl, rfl⟩ <;> norm_num

/-- C6 counterexample: buy 1 at 100 from flat, then sell 1 at 110.  The
position is flat again, but the stored average cost is still `100` — the
exact-cover branch never touches `avg_price`, so it is *not* reset when
inventory returns to `0`. -/
theorem C6_counterexample :
    (on_fill (on_fill mmInit "buy" 100 1 0) "sell" 110 1 1).inventory = 0 ∧
      (on_fill (on_fill mmInit "buy" 100 1 0) "sell" 110 1 1).avg_price
        = 100 ∧
      (100 : ℚ) ≠ 0 := by
  have e1 : (("sell" : String) = "buy") = False := eq_false (by decide)
  have e2 : (("buy" : String) = "buy") = True := eq_true rfl
  have e3 : (("sell" : String) = "sell") = True := eq_true rfl
  refine ⟨?_, ?_, by norm_num⟩ <;>
    norm_num [on_fill, mmInit, e1, e2, e3]

/-- C6 (amended): a fill that exactly flattens the position leaves
`avg_price` untouched — holding its stale value, not `0` — yet a position
opened *from* a flat state gets an average determined by the new price and
quantity alone (`p·q / max(q, ε)`), because the blended-average formula
weighs the stale average by the zero inventory.  So the claim's reset is
wrong, while its independence consequence still holds. -/
theorem C6_amended (s : MMState) (p p2 q ts ts2 : ℚ) :
    (0 < s.inventory →
      (on_fill s "sell" p s.inventory ts).inventory = 0 ∧
      (on_fill s "sell" p s.inventory ts).avg_price = s.avg_price) ∧
      (s.inventory < 0 →
        (on_fill s "buy" p (-s.inventory) ts).inventory = 0 ∧
        (on_fill s "buy" p (-s.inventory) ts).avg_price = s.avg_price) ∧
      (s.inventory = 0 →
        (on_fill s "buy" p2 q ts2).inventory = q ∧
        (on_fill s "buy" p2 q ts2).avg_price =
          p2 * q / max q (1 / 10 ^ 12)) ∧
      (s.inventory = 0 →
        (on_fill s "sell" p2 q ts2).inventory = -q ∧
        (on_fill s "sell" p2 q ts2).avg_price =
          p2 * q / max q (1 / 10 ^ 12)) := by
  have e1 : (("sell" : String) = "buy") = False := eq_false (by decide)
  have e2 : (("buy" : String) = "buy") = True := eq_true rfl
  have e3 : (("sell" : String) = "sell") = True := eq_true rfl
  refine ⟨?_, ?_, ?_, ?_⟩
  · intro h
    simp only [on_fill, e1, e3, if_false, if_true]
    split_ifs with h1 h2
    · exact absurd h1 (not_le.2 h)
    · rw [min_self, sub_self] at h2
      exact absurd h2.2 (lt_irrefl 0)
    · refine ⟨?_, rfl⟩
      show s.inventory - min s.inventory s.inventory = 0
      rw [min_self, sub_self]
  · intro h
    simp only [on_fill, e2, if_true]
    split_ifs with h1 h2
    · exact absurd h1 (not_le.2 h)
    · rw [min_self] at h2
      have hz : -s.inventory - -s.inventory = 0 := sub_self _
      rw [hz] at h2
      exact absurd h2.2 (lt_irrefl 0)
    · refine ⟨?_, rfl⟩
      show s.inventory + min (-s.inventory) (-s.inventory) = 0
      rw [min_self]
      ring
  · intro h
    simp only [on_fill, e2, if_true]
    split_ifs with h1 h2
    · constructor
      · show s.inventory + q = q
        rw [h, zero_add]
      · show (s.avg_price * s.inventory + p2 * q) /
            max (s.inventory + q) (1 / 10 ^ 12) =
          p2 * q / max q (1 / 10 ^ 12)
        rw [h, mul_zero, zero_add, zero_add]
    · exact absurd h.ge h1
    · exact absurd h.ge h1
  · intro h
    simp only [on_fill, e1, e3, if_false, if_true]
    split_ifs with h1 h2
    · constructor
      · show s.inventory - q = -q
        rw [h, zero_sub]
      · show (s.avg_price * -s.inventory + p2 * q) /
            max (-(s.inventory - q)) (1 / 10 ^ 12) =
          p2 * q / max q (1 / 10 ^ 12)
        rw [h, neg_zero, mul_zero, zero_add, zero_sub, neg_neg]
    · exact absurd h.le h1
    · exact absurd h.le h1

/-- Witness for C6 (amended): flattening sells/buys leave the stale
average in place; openings from flat ignore it. -/
theorem C6_witness :
    (on_fill { mmInit with inventory := 2, avg_price := 50 } "sell" 60 2
        0).avg_price = 50 ∧
      (on_fill { mmInit with inventory := -2, avg_price := 50 } "buy" 40 2
        0).avg_price = 50 ∧
      (on_fill mmInit "buy" 60 3 0).inventory = 3 ∧
      (on_fill mmInit "sell" 60 3 0).inventory = -3 := by
  refine ⟨?_, ?_, ?_, ?_⟩
  · exact ((C6_amended { mmInit with inventory := 2, avg_price := 50 }
      60 0 0 0 0).1 (by norm_num)).2
  · exact ((C6_amended { mmInit with inventory := -2, avg_price := 50 }
      40 0 0 0 0).2.1 (by norm_num)).2
  · exact ((C6_amended mmInit 0 60 3 0 0).2.2.1 rfl).1
  · exact ((C6_amended mmInit 0 60 3 0 0).2.2.2 rfl).1

/-- C7: a sell fill bigger than the long position first realizes
`(p − avg)·inventory` on the long leg, then flips the position short by the
remainder at average cost `p`; cash grows by the full `p·qty`.  In
particular long 5 at 100, sell 8 at 110: realized PnL 50, short 3 at
average 110. -/
theorem C7_flip (s : MMState) (p qty ts : ℚ) (hq : 0 < s.inventory)
    (hgt : s.inventory < qty) :
    (on_fill s "sell" p qty ts).cash = s.cash + p * qty ∧
      (on_fill s "sell" p qty ts).realized =
        s.realized + (p - s.avg_price) * s.inventory ∧
      (on_fill s "sell" p qty ts).inventory = -(qty - s.inventory) ∧
      (on_fill s "sell" p qty ts).avg_price = p := by
  have hmin : min qty s.inventory = s.inventory := min_eq_right (le_of_lt hgt)
  have hpos : (0 : ℚ) < qty - s.inventory := sub_pos.2 hgt
  have e1 : (("sell" : String) = "buy") = False := eq_false (by decide)
  have e3 : (("sell" : String) = "sell") = True := eq_true rfl
  simp only [on_fill, e1, e3, if_false, if_true]
  split_ifs with h1 h2
  · exact absurd h1 (not_le.2 hq)
  · refine ⟨rfl, ?_, ?_, rfl⟩
    · show s.realized + (p - s.avg_price) * min qty s.inventory =
        s.realized + (p - s.avg_price) * s.inventory
      rw [hmin]
    · show s.inventory - min qty s.inventory - (qty - min qty s.inventory) =
        -(qty - s.inventory)
      rw [hmin]
      ring
  · exact absurd ⟨by rw [hmin, sub_self], by rw [hmin]; exact hpos⟩ h2

/-- Witness for C7 at the claim's own numbers: long 5 at 100, sell 8 at
110. -/
theorem C7_witness :
    (0 : ℚ) < 5 ∧ (5 : ℚ) < 8 ∧
      (on_fill { mmInit with inventory := 5, avg_price := 100 }
        "sell" 110 8 0).realized = 50 ∧
      (on_fill { mmInit with inventory := 5, avg_price := 100 }
        "sell" 110 8 0).inventory = -3 ∧
      (on_fill { mmInit with inventory := 5, avg_price := 100 }
        "sell" 110 8 0).avg_price = 110 := by
  have h := C7_flip { mmInit with inventory := 5, avg_price := 100 } 110 8 0
    (by norm_num) (by norm_num)
  refine ⟨by norm_num, by norm_num, ?_, ?_, h.2.2.2⟩
  · rw [h.2.1]
    norm_num [mmInit]
  · rw [h.2.2.1]
    norm_num [mmInit]

/-- `_place_quotes` only rewrites the strategy's own-order table (and the
book); it never touches the curves, cash or inventory. -/
theorem place_quotes_curves (cfg : MMConfig) (s : MMState) (ob : OrderBook)
    (b a ts : ℚ) :
    (place_quotes cfg s ob b a ts).1.equity_curve = s.equity_curve ∧
      (place_quotes cfg s ob b a ts).1.inv_curve = s.inv_curve ∧
      (place_quotes cfg s ob b a ts).1.cash = s.cash ∧
      (place_quotes cfg s ob b a ts).1.inventory = s.inventory := by
  simp only [place_quotes]
  split_ifs <;> exact ⟨rfl, rfl, rfl, rfl⟩

/-- Threading the fills of one trade through the counting strategy leaves
its `on_event` counter untouched. -/
theorem countingFills_fst :
    ∀ (fs : List Fill) (lg : List FillLog) (c : Nat × Nat) (t : ℚ),
      ((fs.foldl (fun acc f => (acc.1 ++ [⟨t, f.side, f.price, f.qty⟩],
          countingStrategy.on_fill acc.2 f.side f.price f.qty t))
        (lg, c)).2).1 = c.1 := by
  intro fs
  induction fs with
  | nil => intro lg c t; rfl
  | cons f rest ih =>
    intro lg c t
    rw [List.foldl_cons]
    exact ih _ _ _

/-- Every branch of the replay loop body calls `on_event` exactly once:
the counting strategy's counter always advances by one. -/
theorem replayStep_counting_fst (c : Nat × Nat) (ob : OrderBook)
    (log : List FillLog) (i : Nat) (ev : Event) :
    (replayStep countingStrategy c ob log i ev).1.1 = c.1 + 1 := by
  rw [replayStep]
  split_ifs with hA hB
  · rfl
  · show ((((process_trade ob ev.price ev.size
        (ev.ts.getD ((i : ℚ) * (1 / 1000)))).2).foldl
        (fun acc f => (acc.1 ++ [⟨ev.ts.getD ((i : ℚ) * (1 / 1000)), f.side,
          f.price, f.qty⟩], countingStrategy.on_fill acc.2 f.side f.price
          f.qty (ev.ts.getD ((i : ℚ) * (1 / 1000))))) (log, c)).2).1 + 1 =
      c.1 + 1
    rw [countingFills_fst]
  · rfl

/-- Folding the replay loop advances the counting strategy's `on_event`
counter by exactly the number of processed events. -/
theorem countingRun_fst (l : List (Nat × Event)) :
    ∀ (acc : (Nat × Nat) × OrderBook × List FillLog),
      ((l.foldl (fun acc iev =>
          replayStep countingStrategy acc.1 acc.2.1 acc.2.2 iev.1 iev.2)
        acc).1).1 = acc.1.1 + l.length := by
  induction l with
  | nil =>
    intro acc
    rw [List.foldl_nil, List.length_nil, Nat.add_zero]
  | cons x tl ih =>
    intro acc
    rw [List.foldl_cons, ih, replayStep_counting_fst, List.length_cons]
    omega

/-- C8 counterexample: one trade event replayed against an empty book is a
processed event, yet the strategy's equity and inventory series stay empty
— `on_event` returns before the curve appends whenever either side of the
book is missing a top price. -/
theorem C8_counterexample :
    (replayRun (mmStrategy {} (fun _ => 0)) mmInit initBook
        [{ type := "trade", price := 100, size := 1 }]
        10000).1.equity_curve.length = 0 ∧
      (replayRun (mmStrategy {} (fun _ => 0)) mmInit initBook
        [{ type := "trade", price := 100, size := 1 }]
        10000).1.inv_curve.length = 0 ∧
      (0 : Nat) ≠ 1 := by
  refine ⟨by decide, by decide, by decide⟩

/-- C8 (amended): the replayer does call the strategy's `on_event` exactly
once per processed event, of every kind (counting-strategy clause); but
the market maker's `on_event` appends a point to the equity and inventory
series only when *both* top-of-book sides exist — when either is `None`
it returns early, leaving its entire state and the book untouched — so
each series gains one point per processed event with a two-sided book,
not per processed event. -/
theorem C8_amended (cfg : MMConfig) (volFn : List ℚ → ℚ) (s : MMState)
    (ob : OrderBook) (ts : ℚ) (c : Nat × Nat) (events : List Event)
    (max_events : Nat) :
    (replayRun countingStrategy c ob events max_events).1.1 =
        c.1 + (events.take max_events).length ∧
      ((top_of_book ob).1 = none ∨ (top_of_book ob).2 = none →
        (on_event cfg volFn s ob ts).1 = s ∧
          (on_event cfg volFn s ob ts).2 = ob) ∧
      (∀ bb aa, (top_of_book ob).1 = some bb → (top_of_book ob).2 = some aa →
        (on_event cfg volFn s ob ts).1.equity_curve.length =
            s.equity_curve.length + 1 ∧
          (on_event cfg volFn s ob ts).1.inv_curve.length =
            s.inv_curve.length + 1) := by
  refine ⟨?_, ?_, ?_⟩
  · rw [replayRun, countingRun_fst, List.enum_length]
  · intro h
    rcases htb : top_of_book ob with ⟨bq, aq⟩
    rw [htb] at h
    rw [on_event, htb]
    cases bq with
    | none =>
      cases aq with
      | none => exact ⟨rfl, rfl⟩
      | some aa => exact ⟨rfl, rfl⟩
    | some bb =>
      cases aq with
      | none => exact ⟨rfl, rfl⟩
      | some aa =>
        rcases h with h | h <;> exact absurd h (by simp)
  · intro bb aa hb ha
    have htb : top_of_book ob = (some bb, some aa) := Prod.ext hb ha
    rw [on_event, htb]
    constructor
    · show ((place_quotes cfg _ ob _ _ ts).1.equity_curve ++ _).length = _
      rw [(place_quotes_curves cfg _ ob _ _ ts).1]
      rw [List.length_append]
      rfl
    · show ((place_quotes cfg _ ob _ _ ts).1.inv_curve ++ _).length = _
      rw [(place_quotes_curves cfg _ ob _ _ ts).2.1]
      rw [List.length_append]
      rfl

/-- Witness for C8 (amended): two unknown-kind events are both counted;
the empty book's `on_event` is a no-op; a two-sided book's `on_event`
grows the equity series by one point. -/
theorem C8_witness :
    (replayRun countingStrategy (0, 0) initBook
        [{ type := "noiseA" }, { type := "noiseB" }] 10000).1.1 = 2 ∧
      (on_event {} (fun _ => 0) mmInit initBook 0).1 = mmInit ∧
      (on_event {} (fun _ => 0) mmInit
          (apply_snapshot initBook [(99, 10)] [(101, 4)] 0)
          0).1.equity_curve.length = mmInit.equity_curve.length + 1 := by
  refine ⟨?_, ?_, ?_⟩
  · exact (C8_amended {} (fun _ => 0) mmInit initBook 0 (0, 0)
      [{ type := "noiseA" }, { type := "noiseB" }] 10000).1
  · exact ((C8_amended {} (fun _ => 0) mmInit initBook 0 (0, 0) [] 0).2.1
      (Or.inl (by decide))).1
  · exact ((C8_amended {} (fun _ => 0) mmInit
      (apply_snapshot initBook [(99, 10)] [(101, 4)] 0) 0 (0, 0) [] 0).2.2
      99 101 (by decide) (by decide)).1

/-- C10: for an event of any unrecognized kind the loop body falls through
to the bare `on_event` call: the book handed to (and possibly returned by)
the strategy is the untouched input book, no fill is produced or logged,
and `on_event` runs exactly once with the usual timestamp fallback; with
the counting strategy this concretely bumps only the event counter. -/
theorem C10_unknown_events {σ : Type} (S : Strategy σ) (st : σ)
    (ob : OrderBook) (log : List FillLog) (i : Nat) (ev : Event)
    (h1 : ev.type ≠ "snapshot") (h2 : ev.type ≠ "trade") :
    replayStep S st ob log i ev =
        ((S.on_event st ob (ev.ts.getD ((i : ℚ) * (1 / 1000)))).1,
          (S.on_event st ob (ev.ts.getD ((i : ℚ) * (1 / 1000)))).2, log) ∧
      ∀ c : Nat × Nat,
        replayStep countingStrategy c ob log i ev = ((c.1 + 1, c.2), ob, log) := by
  constructor
  · rw [replayStep, if_neg h1, if_neg h2]
  · intro c
    rw [replayStep, if_neg h1, if_neg h2]
    rfl

/-- Witness for C10 at a concrete `'noise'` event. -/
theorem C10_witness :
    ({ type := "noise" } : Event).type ≠ "snapshot" ∧
      ({ type := "noise" } : Event).type ≠ "trade" ∧
      replayStep countingStrategy (0, 0) initBook [] 5 { type := "noise" } =
        ((1, 0), initBook, []) := by
  refine ⟨by decide, by decide, ?_⟩
  exact (C10_unknown_events countingStrategy (0, 0) initBook [] 5
    { type := "noise" } (by decide) (by decide)).2 (0, 0)

end LOB
